import Mathlib

/-!
# A shallow embedding of `src/CDataFile.cpp`

`cdf::CDataFile` is an in-memory INI-style document model (ordered sections
holding ordered key/value pairs, each with an optional comment) with a
line-oriented parser (`Load`), a serializer (`Save`), and a lookup/mutation
API with auto-create policy flags and case-insensitive name matching.

Strings are modelled as `List Char`.  File I/O is factored out: `Load` takes
the file content as an `Option Str` (`none` models a file that cannot be
opened) and `Save` returns the text it would write together with the status
and the updated document.  The only `std::string` operation used by the
source that can throw — `erase(pos, n)` with `pos > size()`, reached in
`Load` when a `[` line has no `]` — is modelled by `Except Unit`.

The header `CDataFile.h` is not part of `src/`; the character-set constants,
the policy-flag constants and the `t_Key`/`t_Section` aggregates it declares
are modelled from the spec (marked below).
-/

namespace cdf

abbrev Str := List Char

/-- Modelled from the spec: `CDataFile.h` (absent from `src/`) declares the
comment-indicator character set; the spec gives the default `;`. -/
def CommentIndicators : Str := [';']

/-- Modelled from the spec: the key/value delimiter set, default `=`. -/
def EqualIndicators : Str := ['=']

/-- Modelled from the spec: the whitespace character set. -/
def WhiteSpace : Str := [' ', '\t', '\n', '\r']

/-- `std::string::find_first_of` over a character set, as an optional index
(`none` models `npos`). -/
def find_first_of (s : Str) (chars : Str) : Option Nat :=
  match s with
  | [] => none
  | c :: rest =>
    if chars.contains c then some 0
    else (find_first_of rest chars).map (· + 1)

/-- `std::string::find_first_not_of`. -/
def find_first_not_of (s : Str) (chars : Str) : Option Nat :=
  match s with
  | [] => none
  | c :: rest =>
    if !chars.contains c then some 0
    else (find_first_not_of rest chars).map (· + 1)

/-- `std::string::find_last_of`. -/
def find_last_of (s : Str) (chars : Str) : Option Nat :=
  match s with
  | [] => none
  | c :: rest =>
    match find_last_of rest chars with
    | some n => some (n + 1)
    | none => if chars.contains c then some 0 else none

/-- `std::string::find_last_not_of`. -/
def find_last_not_of (s : Str) (chars : Str) : Option Nat :=
  match s with
  | [] => none
  | c :: rest =>
    match find_last_not_of rest chars with
    | some n => some (n + 1)
    | none => if !chars.contains c then some 0 else none

/-- `cdf::Trim`.  In the source the `size_t` results are stored into `int`
variables, so `npos` becomes `-1`; `none` plays that role here.  The left
erase is `erase(0, nPos)` guarded by `nPos > 0`; the right erase is
`erase(rPos, size - rPos)` (i.e. `take rPos`) guarded by
`rPos > nPos && rPos > -1`. -/
def Trim (szStr : Str) : Str :=
  let szTrimChars : Str := WhiteSpace ++ EqualIndicators
  let s1 : Str :=
    match find_first_not_of szStr szTrimChars with
    | some nPos => if 0 < nPos then szStr.drop nPos else szStr
    | none => szStr
  match find_last_of s1 szTrimChars, find_last_not_of s1 szTrimChars with
  | some rPos, some nPos => if nPos < rPos then s1.take rPos else s1
  | some rPos, none => s1.take rPos
  | none, _ => s1

/-- `tolower` in the C locale: only `A`–`Z` fold. -/
def lowerChar (c : Char) : Char :=
  if 'A' ≤ c ∧ c ≤ 'Z' then Char.ofNat (c.toNat + 32) else c

/-- Models `cdf::CompareNoCase(str1, str2) == 0` (equality under
`strcasecmp`); the ordering the `int` result carries is never used by the
source except through `== 0`. -/
def CompareNoCase (str1 str2 : Str) : Bool :=
  str1.map lowerChar == str2.map lowerChar

/-- `cdf::GetNextWord`: splits at the first equal-indicator; the word is
trimmed, the remainder (`CommandLine` after `erase(0, nPos+1)`) is not. -/
def GetNextWord (CommandLine : Str) : Str × Str :=
  match find_first_of CommandLine EqualIndicators with
  | some nPos => (Trim (CommandLine.take nPos), CommandLine.drop (nPos + 1))
  | none => (Trim CommandLine, [])

/-- Modelled from the spec together with the source's field uses: `t_Key`
from `CDataFile.h` — `{ name, value, comment }`. -/
structure t_Key where
  szKey : Str := []
  szValue : Str := []
  szComment : Str := []
deriving DecidableEq, Repr

/-- Modelled from the spec together with the source's field uses:
`t_Section` — `{ name, comment, ordered keys }`. -/
structure t_Section where
  szName : Str := []
  szComment : Str := []
  Keys : List t_Key := []
deriving DecidableEq, Repr

/-- Modelled from the spec: the `AUTOCREATE_SECTIONS` / `AUTOCREATE_KEYS`
bits of `m_Flags`. -/
structure PolicyFlags where
  AUTOCREATE_SECTIONS : Bool
  AUTOCREATE_KEYS : Bool
deriving DecidableEq, Repr

structure CDataFile where
  m_Sections : List t_Section
  m_szFileName : Str
  m_bDirty : Bool
  m_Flags : PolicyFlags
deriving DecidableEq, Repr

/-- `CDataFile::GetSection`: first case-insensitive match. -/
def GetSection (d : CDataFile) (szSection : Str) : Option t_Section :=
  d.m_Sections.find? (fun s => CompareNoCase s.szName szSection)

/-- `CDataFile::GetKey`. -/
def GetKey (d : CDataFile) (szKey szSection : Str) : Option t_Key :=
  match GetSection d szSection with
  | none => none
  | some pSection => pSection.Keys.find? (fun k => CompareNoCase k.szKey szKey)

/-- `CDataFile::CreateSection(szSection, szComment)`. -/
def CreateSection (d : CDataFile) (szSection szComment : Str) : Bool × CDataFile :=
  match GetSection d szSection with
  | some _ => (false, d)
  | none =>
    (true, { d with
      m_Sections := d.m_Sections ++ [{ szName := szSection, szComment := szComment, Keys := [] }],
      m_bDirty := true })

/-- Writing through the `t_Section*` returned by `GetSection`: rewrite the
first section whose name matches case-insensitively. -/
def updateFirstSection (ss : List t_Section) (szSection : Str) (f : t_Section → t_Section) :
    List t_Section :=
  match ss with
  | [] => []
  | s :: rest =>
    if CompareNoCase s.szName szSection then f s :: rest
    else s :: updateFirstSection rest szSection f

/-- Writing through the `t_Key*` returned by `GetKey`. -/
def updateFirstKey (ks : List t_Key) (szKey : Str) (f : t_Key → t_Key) : List t_Key :=
  match ks with
  | [] => []
  | k :: rest =>
    if CompareNoCase k.szKey szKey then f k :: rest
    else k :: updateFirstKey rest szKey f

/-- `CDataFile::SetValue`.  `pKey` is looked up before any section creation,
so after a successful auto-create of the section it is still `NULL`; the
auto-created section keeps comment `""` and, when `AUTOCREATE_KEYS` is off,
survives the failing return (with the dirty flag already set by
`CreateSection`). -/
def SetValue (d : CDataFile) (szKey szValue szComment szSection : Str) : Bool × CDataFile :=
  let pKey := GetKey d szKey szSection
  match GetSection d szSection with
  | none =>
    if !d.m_Flags.AUTOCREATE_SECTIONS then (false, d)
    else
      let d1 := (CreateSection d szSection []).2
      if d1.m_Flags.AUTOCREATE_KEYS then
        (true, { d1 with
          m_Sections := updateFirstSection d1.m_Sections szSection
            (fun s => { s with
              Keys := s.Keys ++ [{ szKey := szKey, szValue := szValue, szComment := szComment }] }),
          m_bDirty := true })
      else (false, d1)
  | some _ =>
    match pKey with
    | none =>
      if d.m_Flags.AUTOCREATE_KEYS then
        (true, { d with
          m_Sections := updateFirstSection d.m_Sections szSection
            (fun s => { s with
              Keys := s.Keys ++ [{ szKey := szKey, szValue := szValue, szComment := szComment }] }),
          m_bDirty := true })
      else (false, d)
    | some _ =>
      (true, { d with
        m_Sections := updateFirstSection d.m_Sections szSection
          (fun s => { s with Keys := (updateFirstKey s.Keys szKey
            (fun k => { k with szValue := szValue, szComment := szComment })) }),
        m_bDirty := true })

/-- `CDataFile::CreateKey`: `SetValue` with `AUTOCREATE_KEYS` forced on and
restored afterwards. -/
def CreateKey (d : CDataFile) (szKey szValue szComment szSection : Str) : Bool × CDataFile :=
  let bAutoKey := d.m_Flags.AUTOCREATE_KEYS
  let r := SetValue { d with m_Flags := { d.m_Flags with AUTOCREATE_KEYS := true } }
    szKey szValue szComment szSection
  (r.1, if !bAutoKey then { r.2 with m_Flags := { r.2.m_Flags with AUTOCREATE_KEYS := false } }
        else r.2)

/-- `CDataFile::CreateSection(szSection, szComment, Keys)`: delegates to
`CreateSection`, copies the given keys into the new section through the
pointer returned by `GetSection` (necessarily the section just appended,
since the plain `CreateSection` succeeded), and then pushes `*pSection` onto
`m_Sections` a second time. -/
def CreateSectionKeys (d : CDataFile) (szSection szComment : Str) (Keys : List t_Key) :
    Bool × CDataFile :=
  let r := CreateSection d szSection szComment
  if !r.1 then (false, d)
  else
    match GetSection r.2 szSection with
    | none => (false, r.2)
    | some pSection =>
      let filled : t_Section :=
        { pSection with szName := szSection, Keys := pSection.Keys ++ Keys }
      (true, { r.2 with
        m_Sections := updateFirstSection r.2.m_Sections szSection
          (fun s => { s with szName := szSection, Keys := s.Keys ++ Keys }) ++ [filled],
        m_bDirty := true })

/-- Erase the first section whose name matches case-insensitively
(the iterator `erase` in `DeleteSection`). -/
def eraseFirstSection (ss : List t_Section) (szSection : Str) : List t_Section :=
  match ss with
  | [] => []
  | s :: rest =>
    if CompareNoCase s.szName szSection then rest
    else s :: eraseFirstSection rest szSection

/-- `CDataFile::DeleteSection`: erase the first case-insensitive match.
The source does not touch `m_bDirty` here. -/
def DeleteSection (d : CDataFile) (szSection : Str) : Bool × CDataFile :=
  if d.m_Sections.any (fun s => CompareNoCase s.szName szSection) then
    (true, { d with m_Sections := eraseFirstSection d.m_Sections szSection })
  else (false, d)

/-- Erase the first key whose name matches case-insensitively. -/
def eraseFirstKey (ks : List t_Key) (szKey : Str) : List t_Key :=
  match ks with
  | [] => []
  | k :: rest =>
    if CompareNoCase k.szKey szKey then rest
    else k :: eraseFirstKey rest szKey

/-- `CDataFile::DeleteKey`.  The source does not touch `m_bDirty` here. -/
def DeleteKey (d : CDataFile) (szKey szFromSection : Str) : Bool × CDataFile :=
  match GetSection d szFromSection with
  | none => (false, d)
  | some pSection =>
    if pSection.Keys.any (fun k => CompareNoCase k.szKey szKey) then
      (true, { d with m_Sections := (updateFirstSection d.m_Sections szFromSection
        (fun s => { s with Keys := eraseFirstKey s.Keys szKey })) })
    else (false, d)

/-- `CDataFile::GetValue`. -/
def GetValue (d : CDataFile) (szKey szSection : Str) : Option Str :=
  (GetKey d szKey szSection).map (fun k => k.szValue)

/-- `CDataFile::GetBool`: `szValue.find("1") == 0` holds exactly when the
stored value starts with `'1'`. -/
def GetBool (d : CDataFile) (szKey szSection : Str) : Option Bool :=
  match GetValue d szKey szSection with
  | none => none
  | some szValue =>
    some (szValue.take 1 == ['1']
      || CompareNoCase szValue "true".toList
      || CompareNoCase szValue "yes".toList)

/-- `CDataFile::SectionCount`. -/
def SectionCount (d : CDataFile) : Nat := d.m_Sections.length

/-- `CDataFile::KeyCount`: sum over all sections. -/
def KeyCount (d : CDataFile) : Nat := (d.m_Sections.map (fun s => s.Keys.length)).sum

/-- `CDataFile::HasSection`. -/
def HasSection (d : CDataFile) (szSection : Str) : Bool := (GetSection d szSection).isSome

/-- `CDataFile::SetDirty`. -/
def SetDirty (d : CDataFile) (dirty : Bool) : CDataFile := { d with m_bDirty := dirty }

/-- `CDataFile::IsDirty`. -/
def IsDirty (d : CDataFile) : Bool := d.m_bDirty

/-- `cdf::CommentStr`: trims the comment; if the result is nonempty and does
not already begin with a comment indicator, prefixes `"; "`. -/
def CommentStr (szComment : Str) : Str :=
  let t := Trim szComment
  if t.length = 0 then t
  else
    (if find_first_of t CommentIndicators ≠ some 0 then CommentIndicators.take 1 ++ [' ']
     else []) ++ t

/-- `cdf::WriteLn`: the formatted text followed by exactly one `'\n'`
(`buf[nLength]` is the NUL left by `memset`, never a terminator, so the
append always fires). -/
def WriteLn (s : Str) : Str := s ++ ['\n']

/-- The text `Save` emits for one key (the `WriteLn` with format
`"%s%s%s%s%c%s"`); keys with empty names are skipped. -/
def saveKeyText (Key : t_Key) : Str :=
  if Key.szKey.length > 0 then
    WriteLn ((if Key.szComment.length > 0 then ['\n'] else [])
      ++ CommentStr Key.szComment
      ++ (if Key.szComment.length > 0 then ['\n'] else [])
      ++ Key.szKey ++ EqualIndicators.take 1 ++ Key.szValue)
  else []

/-- The text `Save` emits for one section: optional comment block, the
`[name]` header when the name is nonempty, then the keys. -/
def saveSectionText (Section : t_Section) : Str :=
  let bWroteComment := Section.szComment.length > 0
  (if bWroteComment then WriteLn (['\n'] ++ CommentStr Section.szComment) else [])
  ++ (if Section.szName.length > 0 then
        WriteLn ((if bWroteComment then [] else ['\n']) ++ ['['] ++ Section.szName ++ [']'])
      else [])
  ++ (Section.Keys.map saveKeyText).flatten

/-- The full text `CDataFile::Save` writes. -/
def saveText (d : CDataFile) : Str := (d.m_Sections.map saveSectionText).flatten

/-- `CDataFile::Save`: the status, the updated document, and on success the
`(path, text)` written (the destination is assumed openable). -/
def Save (d : CDataFile) : Bool × CDataFile × Option (Str × Str) :=
  if KeyCount d = 0 ∧ SectionCount d = 0 then (false, d, none)
  else if d.m_szFileName.length = 0 then (false, d, none)
  else (true, { d with m_bDirty := false }, some (d.m_szFileName, saveText d))

/-- `CDataFile::~CDataFile`: runs `Save` exactly when the dirty flag is
set. -/
def destructorRun (d : CDataFile) : Option (Bool × CDataFile × Option (Str × Str)) :=
  if d.m_bDirty then some (Save d) else none

/-- `std::getline` over the whole content: split on `'\n'`. -/
def splitOnChar (c : Char) : Str → List Str
  | [] => [[]]
  | x :: xs =>
    if x = c then [] :: splitOnChar c xs
    else
      match splitOnChar c xs with
      | [] => [[x]]
      | l :: ls => (x :: l) :: ls

/-- The loop state of `CDataFile::Load`: the document, the name of the
section `pSection` points at (`none` models a NULL pointer), and the pending
comment accumulator. -/
structure LoadState where
  doc : CDataFile
  pSection : Option Str
  szComment : Str
deriving DecidableEq, Repr

/-- One iteration of the `Load` loop.  A `[` line without `]` reaches
`szLine.erase(szLine.find_last_of(']'), 1)` with `npos`, which throws
`std::out_of_range`; a key line with `pSection == NULL` dereferences a null
pointer.  Both abnormal exits are modelled as `.error ()`. -/
def processLine (st : LoadState) (line : Str) : Except Unit LoadState :=
  let szLine := Trim line
  if find_first_of szLine CommentIndicators = some 0 then
    .ok { st with szComment := st.szComment ++ '\n' :: szLine }
  else if find_first_of szLine ['['] = some 0 then
    let s1 := szLine.drop 1
    match find_last_of s1 [']'] with
    | none => .error ()
    | some p =>
      let name := s1.eraseIdx p
      let d1 := (CreateSection st.doc name st.szComment).2
      .ok { doc := d1, pSection := (GetSection d1 name).map (fun s => s.szName), szComment := [] }
  else if szLine.length > 0 then
    let szKey := (GetNextWord szLine).1
    let szValue := (GetNextWord szLine).2
    if szKey.length > 0 then
      match st.pSection with
      | none => .error ()
      | some curName =>
        .ok { st with doc := (SetValue st.doc szKey szValue st.szComment curName).2,
                      szComment := [] }
    else .ok st
  else .ok st

def processLines (st : LoadState) : List Str → Except Unit LoadState
  | [] => .ok st
  | l :: ls => (processLine st l).bind (fun st' => processLines st' ls)

/-- `CDataFile::Load`.  `content = none` models an unopenable file (report
and return `false`); otherwise both auto-create flags are forced on, the
lines are processed, and the original flag values are restored.  The
`MAX_BUFFER_LEN` line-buffer bound is not modelled. -/
def Load (d : CDataFile) (content : Option Str) : Except Unit (Bool × CDataFile) :=
  match content with
  | none => .ok (false, d)
  | some text =>
    let bAutoKey := d.m_Flags.AUTOCREATE_KEYS
    let bAutoSec := d.m_Flags.AUTOCREATE_SECTIONS
    let d1 := { d with m_Flags := { AUTOCREATE_SECTIONS := true, AUTOCREATE_KEYS := true } }
    let st0 : LoadState :=
      { doc := d1, pSection := (GetSection d1 []).map (fun s => s.szName), szComment := [] }
    match processLines st0 (splitOnChar '\n' text) with
    | .error e => .error e
    | .ok st =>
      .ok (true, { st.doc with m_Flags :=
        { AUTOCREATE_SECTIONS :=
            if !bAutoSec then false else st.doc.m_Flags.AUTOCREATE_SECTIONS,
          AUTOCREATE_KEYS :=
            if !bAutoKey then false else st.doc.m_Flags.AUTOCREATE_KEYS } })

/-- `CDataFile::CDataFile()`: `Clear()`, both auto-create flags, one default
(empty-name) section. -/
def ctor0 : CDataFile :=
  { m_Sections := [{}], m_szFileName := [], m_bDirty := false,
    m_Flags := { AUTOCREATE_SECTIONS := true, AUTOCREATE_KEYS := true } }

/-- `CDataFile::CDataFile(szFileName)`: stores the name, pushes the default
section, loads, then clears the dirty flag. -/
def ctorFile (szFileName : Str) (content : Option Str) : Except Unit CDataFile :=
  let d0 : CDataFile :=
    { m_Sections := [{}], m_szFileName := szFileName, m_bDirty := false,
      m_Flags := { AUTOCREATE_SECTIONS := true, AUTOCREATE_KEYS := true } }
  match Load d0 content with
  | .error e => .error e
  | .ok r => .ok { r.2 with m_bDirty := false }

/-! ## Text-utility lemmas -/

/-- The trim character set of `cdf::Trim` as a predicate. -/
def isTrimChar (c : Char) : Bool := (WhiteSpace ++ EqualIndicators).contains c

/-- What the left phase of `cdf::Trim` computes: the whole leading run of
trim characters is removed, but only when some non-trim character exists. -/
def trimLeftAll (s : Str) : Str :=
  if s.any (fun c => !isTrimChar c) then s.dropWhile isTrimChar else s

/-- What the right phase of `cdf::Trim` computes: at most the final
character is removed, and only when it is a trim character. -/
def trimRightOne (s : Str) : Str :=
  match s.getLast? with
  | some c => if isTrimChar c then s.dropLast else s
  | none => s

theorem ffno_cons_true {chars : Str} {c : Char} (rest : Str)
    (hc : chars.contains c = true) :
    find_first_not_of (c :: rest) chars = (find_first_not_of rest chars).map (· + 1) := by
  simp only [find_first_not_of]
  rw [hc]
  simp

theorem ffno_cons_false {chars : Str} {c : Char} (rest : Str)
    (hc : chars.contains c = false) :
    find_first_not_of (c :: rest) chars = some 0 := by
  simp only [find_first_not_of]
  rw [hc]
  simp

theorem flo_cons_some {chars rest : Str} {n : Nat} (c : Char)
    (h : find_last_of rest chars = some n) :
    find_last_of (c :: rest) chars = some (n + 1) := by
  simp only [find_last_of, h]

theorem flo_cons_none {chars rest : Str} (c : Char)
    (h : find_last_of rest chars = none) :
    find_last_of (c :: rest) chars = (if chars.contains c then some 0 else none) := by
  simp only [find_last_of, h]

theorem flno_cons_some {chars rest : Str} {n : Nat} (c : Char)
    (h : find_last_not_of rest chars = some n) :
    find_last_not_of (c :: rest) chars = some (n + 1) := by
  simp only [find_last_not_of, h]

theorem flno_cons_none {chars rest : Str} (c : Char)
    (h : find_last_not_of rest chars = none) :
    find_last_not_of (c :: rest) chars = (if !chars.contains c then some 0 else none) := by
  simp only [find_last_not_of, h]

theorem ffno_none_iff {s chars : Str} :
    find_first_not_of s chars = none ↔ s.any (fun c => !chars.contains c) = false := by
  induction s with
  | nil => simp [find_first_not_of]
  | cons c rest ih =>
    cases hc : chars.contains c with
    | true =>
      rw [ffno_cons_true rest hc, List.any_cons, hc]
      simp only [Bool.not_true, Bool.false_or, Option.map_eq_none']
      exact ih
    | false =>
      rw [ffno_cons_false rest hc, List.any_cons, hc]
      simp

theorem find_first_not_of_drop {s chars : Str} {n : Nat}
    (h : find_first_not_of s chars = some n) :
    s.drop n = s.dropWhile (fun c => chars.contains c) := by
  induction s generalizing n with
  | nil => simp [find_first_not_of] at h
  | cons c rest ih =>
    cases hc : chars.contains c with
    | true =>
      rw [ffno_cons_true rest hc, Option.map_eq_some'] at h
      obtain ⟨m, hm, hn⟩ := h
      subst hn
      rw [List.drop_succ_cons, List.dropWhile_cons, hc, if_pos rfl]
      exact ih hm
    | false =>
      rw [ffno_cons_false rest hc, Option.some.injEq] at h
      subst h
      rw [List.drop_zero, List.dropWhile_cons, hc]
      simp

theorem find_first_not_of_head {s chars : Str}
    (h : find_first_not_of s chars = some 0) :
    s.dropWhile (fun c => chars.contains c) = s := by
  cases s with
  | nil => simp [find_first_not_of] at h
  | cons c rest =>
    cases hc : chars.contains c with
    | true =>
      rw [ffno_cons_true rest hc, Option.map_eq_some'] at h
      obtain ⟨m, _, hm⟩ := h
      omega
    | false =>
      rw [List.dropWhile_cons, hc]
      simp

theorem trim_left_phase (s chars : Str) :
    (match find_first_not_of s chars with
     | some nPos => if 0 < nPos then s.drop nPos else s
     | none => s) =
    (if s.any (fun c => !chars.contains c) = true
     then s.dropWhile (fun c => chars.contains c) else s) := by
  cases hf : find_first_not_of s chars with
  | none =>
    rw [ffno_none_iff] at hf
    rw [hf]
    simp
  | some n =>
    have hany : s.any (fun c => !chars.contains c) = true := by
      cases h2 : s.any (fun c => !chars.contains c) with
      | true => rfl
      | false => rw [ffno_none_iff.mpr h2] at hf; exact absurd hf (by simp)
    rw [hany, if_pos rfl]
    rcases Nat.eq_zero_or_pos n with rfl | hpos
    · show (if 0 < 0 then s.drop 0 else s) = s.dropWhile (fun c => chars.contains c)
      rw [if_neg (by omega)]
      exact (find_first_not_of_head hf).symm
    · show (if 0 < n then s.drop n else s) = s.dropWhile (fun c => chars.contains c)
      rw [if_pos hpos]
      exact find_first_not_of_drop hf

theorem find_last_of_lt_length {s chars : Str} {r : Nat}
    (h : find_last_of s chars = some r) : r < s.length := by
  induction s generalizing r with
  | nil => simp [find_last_of] at h
  | cons c rest ih =>
    cases hr : find_last_of rest chars with
    | some m =>
      rw [flo_cons_some c hr, Option.some.injEq] at h
      subst h
      have := ih hr
      simp only [List.length_cons]
      omega
    | none =>
      rw [flo_cons_none c hr] at h
      cases hc : chars.contains c with
      | true => rw [hc, if_pos rfl, Option.some.injEq] at h; subst h; simp
      | false => rw [hc] at h; simp at h

theorem find_last_of_getLast {s chars : Str} {c : Char}
    (hl : s.getLast? = some c) (hc : chars.contains c = true) :
    find_last_of s chars = some (s.length - 1) := by
  induction s with
  | nil => simp at hl
  | cons x rest ih =>
    cases rest with
    | nil =>
      simp only [List.getLast?_singleton, Option.some.injEq] at hl
      subst hl
      rw [flo_cons_none x (by simp [find_last_of]), hc, if_pos rfl]
      rfl
    | cons y t =>
      have hl' : (y :: t).getLast? = some c := by
        rwa [List.getLast?_cons_cons] at hl
      rw [flo_cons_some x (ih hl')]
      simp

theorem find_last_not_of_getLast {s chars : Str} {c : Char}
    (hl : s.getLast? = some c) (hc : chars.contains c = false) :
    find_last_not_of s chars = some (s.length - 1) := by
  induction s with
  | nil => simp at hl
  | cons x rest ih =>
    cases rest with
    | nil =>
      simp only [List.getLast?_singleton, Option.some.injEq] at hl
      subst hl
      rw [flno_cons_none x (by simp [find_last_not_of]), hc]
      rfl
    | cons y t =>
      have hl' : (y :: t).getLast? = some c := by
        rwa [List.getLast?_cons_cons] at hl
      rw [flno_cons_some x (ih hl')]
      simp

theorem find_last_not_of_lt_of_trim_last {s chars : Str} {c : Char} {n : Nat}
    (hl : s.getLast? = some c) (hc : chars.contains c = true)
    (h : find_last_not_of s chars = some n) : n < s.length - 1 := by
  induction s generalizing n with
  | nil => simp at hl
  | cons x rest ih =>
    cases rest with
    | nil =>
      simp only [List.getLast?_singleton, Option.some.injEq] at hl
      subst hl
      rw [flno_cons_none x (by simp [find_last_not_of]), hc] at h
      simp at h
    | cons y t =>
      have hl' : (y :: t).getLast? = some c := by
        rwa [List.getLast?_cons_cons] at hl
      cases hr : find_last_not_of (y :: t) chars with
      | some m =>
        rw [flno_cons_some x hr, Option.some.injEq] at h
        subst h
        have := ih hl' hr
        simp only [List.length_cons] at this ⊢
        omega
      | none =>
        rw [flno_cons_none x hr] at h
        cases hx : chars.contains x with
        | true => rw [hx] at h; simp at h
        | false =>
          rw [hx] at h
          simp at h
          subst h
          simp only [List.length_cons]
          omega

theorem trimRightOne_last_trim {t : Str} {c : Char} (hl : t.getLast? = some c)
    (hc : isTrimChar c = true) : trimRightOne t = t.dropLast := by
  unfold trimRightOne
  rw [hl]
  show (if isTrimChar c = true then t.dropLast else t) = t.dropLast
  rw [if_pos hc]

theorem trimRightOne_last_keep {t : Str} {c : Char} (hl : t.getLast? = some c)
    (hc : isTrimChar c = false) : trimRightOne t = t := by
  unfold trimRightOne
  rw [hl]
  show (if isTrimChar c = true then t.dropLast else t) = t
  rw [hc]
  simp

theorem Trim_eq_phases (s : Str) :
    Trim s = trimRightOne (trimLeftAll s) := by
  have hstep : Trim s =
      (match find_last_of (trimLeftAll s) (WhiteSpace ++ EqualIndicators),
             find_last_not_of (trimLeftAll s) (WhiteSpace ++ EqualIndicators) with
       | some rPos, some nPos =>
         if nPos < rPos then (trimLeftAll s).take rPos else trimLeftAll s
       | some rPos, none => (trimLeftAll s).take rPos
       | none, _ => trimLeftAll s) := by
    unfold Trim
    simp only []
    rw [trim_left_phase s (WhiteSpace ++ EqualIndicators)]
    rfl
  rw [hstep]
  cases hlast : (trimLeftAll s).getLast? with
  | none =>
    have hnil : trimLeftAll s = [] := by
      cases h : trimLeftAll s with
      | nil => rfl
      | cons a b =>
        rw [h] at hlast
        simp [List.getLast?_eq_getLast] at hlast
    rw [hnil]
    rfl
  | some c =>
    cases hc : (WhiteSpace ++ EqualIndicators).contains c with
    | true =>
      rw [find_last_of_getLast hlast hc]
      cases hn : find_last_not_of (trimLeftAll s) (WhiteSpace ++ EqualIndicators) with
      | none =>
        show (trimLeftAll s).take ((trimLeftAll s).length - 1) = trimRightOne (trimLeftAll s)
        rw [trimRightOne_last_trim hlast hc, List.dropLast_eq_take]
      | some n =>
        have hlt := find_last_not_of_lt_of_trim_last hlast hc hn
        show (if n < (trimLeftAll s).length - 1
              then (trimLeftAll s).take ((trimLeftAll s).length - 1)
              else trimLeftAll s) = trimRightOne (trimLeftAll s)
        rw [if_pos hlt, trimRightOne_last_trim hlast hc, List.dropLast_eq_take]
    | false =>
      rw [find_last_not_of_getLast hlast hc]
      cases hr : find_last_of (trimLeftAll s) (WhiteSpace ++ EqualIndicators) with
      | none =>
        show trimLeftAll s = trimRightOne (trimLeftAll s)
        rw [trimRightOne_last_keep hlast hc]
      | some r =>
        have hrlt := find_last_of_lt_length hr
        show (if (trimLeftAll s).length - 1 < r
              then (trimLeftAll s).take r
              else trimLeftAll s) = trimRightOne (trimLeftAll s)
        rw [if_neg (by omega), trimRightOne_last_keep hlast hc]
/-- **C6 (amended): the characterization of `cdf::Trim`**: the left phase
removes the full leading run of trim characters (whenever the string has a
non-trim character at all); the right phase removes only the final
character, and only when that final character is a trim character.  The
interior of the string is never touched (both phases are `dropWhile` /
`dropLast`). -/
theorem c6_trim_amended (s : Str) :
    Trim s = trimRightOne (trimLeftAll s) :=
  Trim_eq_phases s

/-- Modelled from the spec's words, for comparison with `cdf::Trim`:
removal of ALL leading and ALL trailing characters of the trim set. -/
def trimSpec (s : Str) : Str :=
  (((s.dropWhile isTrimChar).reverse).dropWhile isTrimChar).reverse

/-- **C6 counterexample**: on `"a  "` (two trailing spaces) `cdf::Trim`
removes only the final character — the right-phase erase starts at
`find_last_of`, the LAST trim character, not at the first trailing one — so
one trailing space survives, contradicting "removes all … trailing
characters". -/
theorem c6_counterexample :
    Trim ('a' :: ' ' :: [' ']) ≠ trimSpec ('a' :: ' ' :: [' ']) ∧
    Trim ('a' :: ' ' :: [' ']) = ['a', ' '] ∧
    trimSpec ('a' :: ' ' :: [' ']) = ['a'] := by decide

/-! ## Case-insensitive comparison lemmas -/

theorem CompareNoCase_refl (s : Str) : CompareNoCase s s = true := by
  simp [CompareNoCase]

theorem CompareNoCase_nil_iff {s : Str} : CompareNoCase s [] = true ↔ s = [] := by
  simp [CompareNoCase]

theorem CompareNoCase_nil_iff' {s : Str} : CompareNoCase [] s = true ↔ s = [] := by
  rw [CompareNoCase]
  constructor
  · intro h
    rw [List.map_nil] at h
    have h2 := beq_iff_eq.mp h
    have h3 := h2.symm
    simpa using h3
  · intro h
    subst h
    rfl

theorem compare_lit_iff {v lit : Str} (hl : lit.map lowerChar = lit) :
    CompareNoCase v lit = true ↔ v.map lowerChar = lit := by
  rw [CompareNoCase, hl]
  simp

theorem take_one_eq_one {v : Str} : (v.take 1 == ['1']) = true ↔ v.head? = some '1' := by
  cases v with
  | nil => simp
  | cons c t => simp [List.take_succ_cons]

/-! ## C8: auto-create-off policy -/

/-- **C8 (confirmed)**: with `AUTOCREATE_KEYS` disabled, `SetValue` on an
existing section that has no such key (case-insensitively) returns failure
and leaves the document — in particular `KeyCount` — unchanged. -/
theorem c8_autocreate_off (d : CDataFile) (szKey szValue szComment szSection : Str)
    (hAuto : d.m_Flags.AUTOCREATE_KEYS = false)
    (hSec : (GetSection d szSection).isSome = true)
    (hKey : GetKey d szKey szSection = none) :
    SetValue d szKey szValue szComment szSection = (false, d) ∧
    KeyCount (SetValue d szKey szValue szComment szSection).2 = KeyCount d := by
  obtain ⟨sec, hsec⟩ := Option.isSome_iff_exists.mp hSec
  have hmain : SetValue d szKey szValue szComment szSection = (false, d) := by
    unfold SetValue
    simp only []
    rw [hKey, hsec]
    show (if d.m_Flags.AUTOCREATE_KEYS = true then _ else (false, d)) = (false, d)
    rw [hAuto]
    simp
  exact ⟨hmain, by rw [hmain]⟩

def c8doc : CDataFile :=
  (CreateSection { ctor0 with m_Flags := ⟨true, false⟩ } ['S'] []).2

theorem c8_autocreate_off_witness :
    SetValue c8doc ['K'] ['v'] [] ['S'] = (false, c8doc) ∧
    KeyCount (SetValue c8doc ['K'] ['v'] [] ['S']).2 = KeyCount c8doc :=
  c8_autocreate_off c8doc ['K'] ['v'] [] ['S'] (by decide) (by decide) (by decide)

/-! ## C9: GetBool -/

/-- **C9 (confirmed)**: on an existing key `GetBool` always reports success,
and the boolean it returns is `true` exactly when the stored value starts
with `'1'`, or case-folds to `"true"`, or case-folds to `"yes"`; every other
stored value yields `false` with the call still succeeding. -/
theorem c9_getbool (d : CDataFile) (szKey szSection : Str) (k : t_Key)
    (h : GetKey d szKey szSection = some k) :
    ∃ b, GetBool d szKey szSection = some b ∧
      (b = true ↔ (k.szValue.head? = some '1'
        ∨ k.szValue.map lowerChar = "true".toList
        ∨ k.szValue.map lowerChar = "yes".toList)) := by
  have hv : GetValue d szKey szSection = some k.szValue := by
    rw [GetValue, h]
    rfl
  have hb : GetBool d szKey szSection =
      some (k.szValue.take 1 == ['1']
        || CompareNoCase k.szValue "true".toList
        || CompareNoCase k.szValue "yes".toList) := by
    rw [GetBool, hv]
  refine ⟨_, hb, ?_⟩
  simp only [Bool.or_eq_true]
  rw [take_one_eq_one,
    compare_lit_iff (show "true".toList.map lowerChar = "true".toList by decide),
    compare_lit_iff (show "yes".toList.map lowerChar = "yes".toList by decide)]
  tauto

theorem c9_getbool_witness :
    ∃ b, GetBool (SetValue ctor0 ['B'] "yes".toList [] []).2 ['B'] [] = some b ∧
      (b = true ↔ (("yes".toList).head? = some '1'
        ∨ ("yes".toList).map lowerChar = "true".toList
        ∨ ("yes".toList).map lowerChar = "yes".toList)) :=
  c9_getbool (SetValue ctor0 ['B'] "yes".toList [] []).2 ['B'] []
    ⟨['B'], "yes".toList, []⟩ (by decide)

/-! ## C10: destructor auto-save -/

/-- **C10 (confirmed)**: destroying a document with the dirty flag set runs
`Save` (on the stored file path); destroying a clean document performs no
write.  (The spec indeed never mentions this behavior.) -/
theorem c10_dtor (d : CDataFile) :
    (d.m_bDirty = true → destructorRun d = some (Save d)) ∧
    (d.m_bDirty = false → destructorRun d = none) := by
  unfold destructorRun
  constructor <;> intro h <;> rw [h] <;> simp

theorem c10_dtor_witness :
    destructorRun (SetValue ctor0 ['K'] ['v'] [] []).2 =
      some (Save (SetValue ctor0 ['K'] ['v'] [] []).2) ∧
    destructorRun ctor0 = none :=
  ⟨(c10_dtor (SetValue ctor0 ['K'] ['v'] [] []).2).1 (by decide),
   (c10_dtor ctor0).2 (by decide)⟩

/-! ## C2 / C3 / C4 / C5 / C7 counterexamples -/

/-- The number of sections whose name is the empty string. -/
def defaultCount (d : CDataFile) : Nat :=
  d.m_Sections.countP (fun s => s.szName == [])

/-- **C2 counterexample**: `DeleteSection("")` case-insensitively matches
the default section and erases it, so afterwards the document contains no
empty-name section at all (the claim says exactly one always exists, even
including this call). -/
theorem c2_counterexample :
    (DeleteSection ctor0 []).1 = true ∧
    defaultCount (DeleteSection ctor0 []).2 = 0 ∧
    SectionCount (DeleteSection ctor0 []).2 = 0 := by decide

/-- **C3 (code bug), evaluation at the failing input**: the `KeyList`
overload of `CreateSection` on a fresh document appends the new section a
second time — `CreateSection("A", "", {})` yields TWO sections named `"A"`
even though its own duplicate check just verified the name was free. -/
theorem c3_duplicate_sections :
    (CreateSectionKeys ctor0 ['A'] [] []).1 = true ∧
    ((CreateSectionKeys ctor0 ['A'] [] []).2.m_Sections.map (fun s => s.szName)) =
      [[], ['A'], ['A']] ∧
    ((CreateSectionKeys ctor0 ['A'] [] []).2.m_Sections.countP
      (fun s => CompareNoCase s.szName ['A'])) = 2 := by decide

/-- **C4 counterexample**: a successful `DeleteKey` does not set the dirty
flag (the source never touches `m_bDirty` in `DeleteKey`/`DeleteSection`):
create a key, clear the flag with the public `SetDirty`, delete the key —
the delete succeeds and the flag stays `false`. -/
theorem c4_counterexample :
    (DeleteKey (SetDirty (SetValue ctor0 ['K'] ['v'] [] []).2 false) ['K'] []).1 = true ∧
    (DeleteKey (SetDirty (SetValue ctor0 ['K'] ['v'] [] []).2 false) ['K'] []).2.m_bDirty
      = false := by decide

/-- **C5 counterexample**: a line whose trimmed form starts with `[` but
contains no `]` makes `Load` evaluate `szLine.erase(npos, 1)`, which throws
`std::out_of_range` instead of completing with a boolean. -/
theorem c5_counterexample :
    Load ctor0 (some "[abc".toList) = .error () := by rfl

/-- **C7 counterexample**: parsing `";c1\n\nKey=V\n"` attaches to `Key` the
comment `"\n;c1"` — the accumulator receives a leading `'\n'` even though it
was empty — which differs from `"c1"` (and from indicator-normalized
`";c1"`) by the spurious leading newline. -/
theorem c7_counterexample :
    (match Load ctor0 (some ";c1\n\nKey=V\n".toList) with
     | .ok r => (GetKey r.2 "Key".toList []).map (fun k => k.szComment)
     | .error _ => none) = some "\n;c1".toList ∧
    ("\n;c1".toList : Str) ≠ "c1".toList ∧
    ("\n;c1".toList : Str) ≠ ";c1".toList := by decide

/-! ## C4 amended: which operations touch the dirty flag -/

theorem SetValue_dirty (d : CDataFile) (k v c s : Str)
    (h : (SetValue d k v c s).1 = true) : (SetValue d k v c s).2.m_bDirty = true := by
  rcases hsv : SetValue d k v c s with ⟨b, d'⟩
  rw [hsv] at h
  simp only [] at h
  subst h
  unfold SetValue at hsv
  simp only [] at hsv
  split at hsv
  · split at hsv
    · exact absurd hsv (by simp)
    · split at hsv
      · injection hsv with h1 h2
        rw [← h2]
      · exact absurd hsv (by simp)
  · split at hsv
    · split at hsv
      · injection hsv with h1 h2
        rw [← h2]
      · exact absurd hsv (by simp)
    · injection hsv with h1 h2
      rw [← h2]

theorem CreateSection_dirty (d : CDataFile) (n c : Str)
    (h : (CreateSection d n c).1 = true) : (CreateSection d n c).2.m_bDirty = true := by
  rcases hcs : CreateSection d n c with ⟨b, d'⟩
  rw [hcs] at h
  simp only [] at h
  subst h
  unfold CreateSection at hcs
  split at hcs
  · exact absurd hcs (by simp)
  · injection hcs with h1 h2
    rw [← h2]

theorem DeleteKey_dirty (d : CDataFile) (k s : Str) :
    (DeleteKey d k s).2.m_bDirty = d.m_bDirty := by
  unfold DeleteKey
  split
  · rfl
  · split <;> rfl

theorem DeleteSection_dirty (d : CDataFile) (n : Str) :
    (DeleteSection d n).2.m_bDirty = d.m_bDirty := by
  unfold DeleteSection
  split <;> rfl

theorem Save_dirty (d : CDataFile) (h : (Save d).1 = true) :
    (Save d).2.1.m_bDirty = false := by
  rcases hs : Save d with ⟨b, d', w⟩
  rw [hs] at h
  simp only [] at h
  subst h
  unfold Save at hs
  split at hs
  · exact absurd hs (by simp)
  · split at hs
    · exact absurd hs (by simp)
    · injection hs with h1 h2
      injection h2 with h2 h3
      rw [← h2]

theorem ctorFile_dirty (n : Str) (c : Option Str) (d : CDataFile)
    (h : ctorFile n c = .ok d) : d.m_bDirty = false := by
  unfold ctorFile at h
  simp only [] at h
  split at h
  · exact absurd h (by simp)
  · injection h with h1
    rw [← h1]

/-- **C4 (amended)**: every successful `SetValue`/`CreateSection` sets the
dirty flag, a successful `Save` clears it, and a document freshly
constructed from a file has it clear; but `DeleteKey` and `DeleteSection`
leave the dirty flag exactly as it was — the source never touches
`m_bDirty` on the delete paths. -/
theorem c4_dirty_amended :
    (∀ d k v c s, (SetValue d k v c s).1 = true → (SetValue d k v c s).2.m_bDirty = true) ∧
    (∀ d n c, (CreateSection d n c).1 = true → (CreateSection d n c).2.m_bDirty = true) ∧
    (∀ d k s, (DeleteKey d k s).2.m_bDirty = d.m_bDirty) ∧
    (∀ d n, (DeleteSection d n).2.m_bDirty = d.m_bDirty) ∧
    (∀ d, (Save d).1 = true → (Save d).2.1.m_bDirty = false) ∧
    (∀ n c d, ctorFile n c = .ok d → d.m_bDirty = false) :=
  ⟨SetValue_dirty, CreateSection_dirty, DeleteKey_dirty, DeleteSection_dirty,
   Save_dirty, ctorFile_dirty⟩

theorem c4_dirty_amended_witness :
    (SetValue ctor0 ['K'] ['v'] [] []).2.m_bDirty = true ∧
    (DeleteKey (SetValue ctor0 ['K'] ['v'] [] []).2 ['K'] []).2.m_bDirty =
      (SetValue ctor0 ['K'] ['v'] [] []).2.m_bDirty :=
  ⟨c4_dirty_amended.1 ctor0 ['K'] ['v'] [] [] (by decide),
   c4_dirty_amended.2.2.1 (SetValue ctor0 ['K'] ['v'] [] []).2 ['K'] []⟩

/-! ## C2 amended: the default-section invariant -/

theorem CompareNoCase_nil_congr {a b : Str} (h : CompareNoCase a b = true) :
    a = [] ↔ b = [] := by
  rw [CompareNoCase] at h
  have hm := beq_iff_eq.mp h
  constructor
  · intro ha
    subst ha
    rw [List.map_nil] at hm
    have := hm.symm
    simpa using this
  · intro hb
    subst hb
    rw [List.map_nil] at hm
    simpa using hm

theorem countP_updateFirstSection (ss : List t_Section) (n : Str) (f : t_Section → t_Section)
    (hf : ∀ s, CompareNoCase s.szName n = true → ((f s).szName == []) = (s.szName == [])) :
    (updateFirstSection ss n f).countP (fun s => s.szName == []) =
    ss.countP (fun s => s.szName == []) := by
  induction ss with
  | nil => rfl
  | cons s rest ih =>
    rw [updateFirstSection]
    by_cases h : CompareNoCase s.szName n = true
    · rw [if_pos h, List.countP_cons, List.countP_cons, hf s h]
    · rw [if_neg h, List.countP_cons, List.countP_cons, ih]

theorem countP_append_single (ss : List t_Section) (s : t_Section) :
    (ss ++ [s]).countP (fun x => x.szName == []) =
    ss.countP (fun x => x.szName == []) + (if s.szName == [] then 1 else 0) := by
  rw [List.countP_append, List.countP_cons]
  simp [List.countP_nil]

theorem GetSection_none_iff {d : CDataFile} {n : Str} :
    GetSection d n = none ↔ ∀ s ∈ d.m_Sections, CompareNoCase s.szName n = false := by
  rw [GetSection, List.find?_eq_none]
  constructor
  · intro h s hs
    have := h s hs
    simpa using this
  · intro h s hs
    rw [h s hs]
    simp

theorem exists_default_of_count {d : CDataFile} (h : defaultCount d = 1) :
    ∃ s ∈ d.m_Sections, s.szName = [] := by
  have hpos : 0 < d.m_Sections.countP (fun s => s.szName == []) := by
    rw [defaultCount] at h
    omega
  obtain ⟨s, hs, hp⟩ := List.countP_pos_iff.mp hpos
  exact ⟨s, hs, by simpa using hp⟩

theorem GetSection_none_ne_nil {d : CDataFile} {n : Str} (hd : defaultCount d = 1)
    (h : GetSection d n = none) : n ≠ [] := by
  obtain ⟨s0, hs0, hname⟩ := exists_default_of_count hd
  have hcmp := GetSection_none_iff.mp h s0 hs0
  intro hn
  subst hn
  rw [hname] at hcmp
  rw [CompareNoCase_refl] at hcmp
  exact absurd hcmp (by simp)

theorem CreateSection_false_of_some {d : CDataFile} {n : Str} (c : Str)
    (h : (GetSection d n).isSome = true) : CreateSection d n c = (false, d) := by
  obtain ⟨sec, hsec⟩ := Option.isSome_iff_exists.mp h
  unfold CreateSection
  rw [hsec]

theorem CreateSection_of_none {d : CDataFile} {n : Str} (c : Str)
    (h : GetSection d n = none) :
    CreateSection d n c = (true, { d with
      m_Sections := d.m_Sections ++ [{ szName := n, szComment := c, Keys := [] }],
      m_bDirty := true }) := by
  unfold CreateSection
  rw [h]

theorem defaultCount_CreateSection (d : CDataFile) (n c : Str) (hd : defaultCount d = 1) :
    defaultCount (CreateSection d n c).2 = 1 := by
  cases h : GetSection d n with
  | some s =>
    rw [CreateSection_false_of_some c (by rw [h]; rfl)]
    exact hd
  | none =>
    have hn : n ≠ [] := GetSection_none_ne_nil hd h
    rw [CreateSection_of_none c h]
    dsimp only
    unfold defaultCount
    dsimp only
    rw [countP_append_single]
    unfold defaultCount at hd
    rw [hd]
    simp [hn]

theorem defaultCount_SetValue (d : CDataFile) (k v c s : Str) (hd : defaultCount d = 1) :
    defaultCount (SetValue d k v c s).2 = 1 := by
  rcases hres : SetValue d k v c s with ⟨b, d'⟩
  dsimp only
  unfold SetValue at hres
  simp only [] at hres
  split at hres
  · rename_i hGS
    split at hres
    · injection hres with h1 h2
      rw [← h2]
      exact hd
    · have hn : s ≠ [] := GetSection_none_ne_nil hd hGS
      have hd1 : defaultCount (CreateSection d s []).2 = 1 :=
        defaultCount_CreateSection d s [] hd
      split at hres
      · injection hres with h1 h2
        rw [← h2]
        unfold defaultCount
        dsimp only
        rw [countP_updateFirstSection]
        · exact hd1
        · intro sec hsec
          rfl
      · injection hres with h1 h2
        rw [← h2]
        exact hd1
  · split at hres
    · split at hres
      · injection hres with h1 h2
        rw [← h2]
        unfold defaultCount
        dsimp only
        rw [countP_updateFirstSection]
        · exact hd
        · intro sec hsec
          rfl
      · injection hres with h1 h2
        rw [← h2]
        exact hd
    · injection hres with h1 h2
      rw [← h2]
      unfold defaultCount
      dsimp only
      rw [countP_updateFirstSection]
      · exact hd
      · intro sec hsec
        rfl

theorem defaultCount_SetFlags (d : CDataFile) (fl : PolicyFlags) :
    defaultCount { d with m_Flags := fl } = defaultCount d := rfl

theorem defaultCount_CreateKey (d : CDataFile) (k v c s : Str) (hd : defaultCount d = 1) :
    defaultCount (CreateKey d k v c s).2 = 1 := by
  unfold CreateKey
  dsimp only
  by_cases hA : (!d.m_Flags.AUTOCREATE_KEYS) = true
  · rw [if_pos hA]
    exact defaultCount_SetValue _ k v c s hd
  · rw [if_neg hA]
    exact defaultCount_SetValue _ k v c s hd

theorem defaultCount_CreateSectionKeys (d : CDataFile) (n c : Str) (ks : List t_Key)
    (hd : defaultCount d = 1) : defaultCount (CreateSectionKeys d n c ks).2 = 1 := by
  rcases hres : CreateSectionKeys d n c ks with ⟨b, d'⟩
  dsimp only
  unfold CreateSectionKeys at hres
  simp only [] at hres
  cases hG : GetSection d n with
  | some s =>
    rw [CreateSection_false_of_some c (by rw [hG]; rfl)] at hres
    simp only [Bool.not_false, if_pos rfl] at hres
    injection hres with h1 h2
    rw [← h2]
    exact hd
  | none =>
    have hn : n ≠ [] := GetSection_none_ne_nil hd hG
    rw [CreateSection_of_none c hG] at hres
    simp only [Bool.not_true, Bool.false_eq_true, if_false] at hres
    split at hres
    · injection hres with h1 h2
      rw [← h2]
      unfold defaultCount
      dsimp only
      rw [countP_append_single]
      unfold defaultCount at hd
      rw [hd]
      simp [hn]
    · injection hres with h1 h2
      rw [← h2]
      have hupd := countP_updateFirstSection
        (d.m_Sections ++ [{ szName := n, szComment := c, Keys := [] }]) n
        (fun s => { s with szName := n, Keys := s.Keys ++ ks })
        (by
          intro s hs
          have hiff := CompareNoCase_nil_congr hs
          have hsname : s.szName ≠ [] := fun hx => hn (hiff.mp hx)
          dsimp only
          have hl : ((n : Str) == []) = false := by simpa using hn
          have hr : (s.szName == []) = false := by simpa using hsname
          rw [hl, hr])
      unfold defaultCount
      dsimp only
      rw [countP_append_single, hupd, countP_append_single]
      unfold defaultCount at hd
      rw [hd]
      simp [hn]

theorem defaultCount_DeleteKey (d : CDataFile) (k s : Str) :
    defaultCount (DeleteKey d k s).2 = defaultCount d := by
  rcases hres : DeleteKey d k s with ⟨b, d'⟩
  dsimp only
  unfold DeleteKey at hres
  split at hres
  · injection hres with h1 h2
    rw [← h2]
  · split at hres
    · injection hres with h1 h2
      rw [← h2]
      have hupd := countP_updateFirstSection d.m_Sections s
        (fun x => { x with Keys := eraseFirstKey x.Keys k })
        (fun sec hsec => rfl)
      unfold defaultCount
      dsimp only
      rw [hupd]
    · injection hres with h1 h2
      rw [← h2]

theorem countP_eraseFirstSection (ss : List t_Section) (n : Str) (hn : n ≠ []) :
    (eraseFirstSection ss n).countP (fun s => s.szName == []) =
    ss.countP (fun s => s.szName == []) := by
  induction ss with
  | nil => rfl
  | cons s rest ih =>
    rw [eraseFirstSection]
    by_cases h : CompareNoCase s.szName n = true
    · rw [if_pos h, List.countP_cons]
      have hsname : s.szName ≠ [] := by
        intro hx
        exact hn ((CompareNoCase_nil_congr h).mp hx)
      have : (s.szName == []) = false := by simpa using hsname
      rw [this]
      simp
    · rw [if_neg h, List.countP_cons, List.countP_cons, ih]

theorem defaultCount_DeleteSection (d : CDataFile) (n : Str) (hn : n ≠ []) :
    defaultCount (DeleteSection d n).2 = defaultCount d := by
  unfold DeleteSection
  by_cases h : d.m_Sections.any (fun s => CompareNoCase s.szName n) = true
  · rw [if_pos h]
    exact countP_eraseFirstSection d.m_Sections n hn
  · rw [if_neg h]

theorem defaultCount_Save (d : CDataFile) :
    defaultCount (Save d).2.1 = defaultCount d := by
  unfold Save
  split
  · rfl
  · split <;> rfl

theorem defaultCount_processLine {st st' : LoadState} {l : Str}
    (h : processLine st l = .ok st') (hd : defaultCount st.doc = 1) :
    defaultCount st'.doc = 1 := by
  unfold processLine at h
  simp only [] at h
  split at h
  · injection h with h1
    rw [← h1]
    exact hd
  · split at h
    · split at h
      · exact absurd h (by simp)
      · injection h with h1
        rw [← h1]
        exact defaultCount_CreateSection _ _ _ hd
    · split at h
      · split at h
        · split at h
          · exact absurd h (by simp)
          · injection h with h1
            rw [← h1]
            exact defaultCount_SetValue _ _ _ _ _ hd
        · injection h with h1
          rw [← h1]
          exact hd
      · injection h with h1
        rw [← h1]
        exact hd

theorem defaultCount_processLines {st st' : LoadState} {ls : List Str}
    (h : processLines st ls = .ok st') (hd : defaultCount st.doc = 1) :
    defaultCount st'.doc = 1 := by
  induction ls generalizing st with
  | nil =>
    unfold processLines at h
    injection h with h1
    rw [← h1]
    exact hd
  | cons l ls ih =>
    unfold processLines at h
    cases hp : processLine st l with
    | error e =>
      rw [hp] at h
      exact absurd h (by simp [Except.bind])
    | ok st1 =>
      rw [hp] at h
      have h' : processLines st1 ls = .ok st' := h
      exact ih h' (defaultCount_processLine hp hd)

theorem defaultCount_Load {d : CDataFile} {c : Option Str} {r : Bool × CDataFile}
    (h : Load d c = .ok r) (hd : defaultCount d = 1) : defaultCount r.2 = 1 := by
  unfold Load at h
  cases c with
  | none =>
    injection h with h1
    rw [← h1]
    exact hd
  | some text =>
    simp only [] at h
    cases hp : processLines
        { doc := { d with m_Flags := { AUTOCREATE_SECTIONS := true, AUTOCREATE_KEYS := true } },
          pSection := (GetSection { d with
            m_Flags := { AUTOCREATE_SECTIONS := true, AUTOCREATE_KEYS := true } } []).map
              (fun s => s.szName),
          szComment := [] } (splitOnChar '\n' text) with
    | error e =>
      rw [hp] at h
      exact absurd h (by simp)
    | ok st =>
      rw [hp] at h
      injection h with h1
      rw [← h1]
      exact defaultCount_processLines hp hd

theorem defaultCount_ctorFile {n : Str} {c : Option Str} {d : CDataFile}
    (h : ctorFile n c = .ok d) : defaultCount d = 1 := by
  unfold ctorFile at h
  simp only [] at h
  split at h
  · exact absurd h (by simp)
  · injection h with h1
    rw [← h1]
    rename_i r heq
    exact defaultCount_Load heq (by rfl)

/-- **C2 (amended)**: exactly one default (empty-name) section exists after
construction, and this is preserved by every modeled public operation except
`DeleteSection` with a name case-insensitively equal to `""` (which erases
the default section, as the counterexample shows). -/
theorem c2_default_section_amended :
    defaultCount ctor0 = 1 ∧
    (∀ d k v c s, defaultCount d = 1 → defaultCount (SetValue d k v c s).2 = 1) ∧
    (∀ d k v c s, defaultCount d = 1 → defaultCount (CreateKey d k v c s).2 = 1) ∧
    (∀ d n c, defaultCount d = 1 → defaultCount (CreateSection d n c).2 = 1) ∧
    (∀ d n c ks, defaultCount d = 1 → defaultCount (CreateSectionKeys d n c ks).2 = 1) ∧
    (∀ d k s, defaultCount (DeleteKey d k s).2 = defaultCount d) ∧
    (∀ d n, n ≠ [] → defaultCount (DeleteSection d n).2 = defaultCount d) ∧
    (∀ d b, defaultCount (SetDirty d b) = defaultCount d) ∧
    (∀ d, defaultCount (Save d).2.1 = defaultCount d) ∧
    (∀ d c b d', Load d c = .ok (b, d') → defaultCount d = 1 → defaultCount d' = 1) ∧
    (∀ n c d, ctorFile n c = .ok d → defaultCount d = 1) :=
  ⟨by decide,
   defaultCount_SetValue,
   defaultCount_CreateKey,
   defaultCount_CreateSection,
   defaultCount_CreateSectionKeys,
   defaultCount_DeleteKey,
   defaultCount_DeleteSection,
   fun _ _ => rfl,
   defaultCount_Save,
   fun _ _ _ _ h hd => defaultCount_Load h hd,
   fun _ _ _ h => defaultCount_ctorFile h⟩

theorem c2_default_section_witness :
    defaultCount (SetValue ctor0 ['K'] ['v'] [] ['S']).2 = 1 ∧
    defaultCount (DeleteSection ctor0 ['S']).2 = defaultCount ctor0 :=
  ⟨c2_default_section_amended.2.1 ctor0 ['K'] ['v'] [] ['S'] (by decide),
   c2_default_section_amended.2.2.2.2.2.2.1 ctor0 ['S'] (by decide)⟩

/-! ## C5 amended: totality of Load on bracket-closed inputs -/

theorem flo_none_iff {s chars : Str} :
    find_last_of s chars = none ↔ ∀ c ∈ s, chars.contains c = false := by
  induction s with
  | nil => simp [find_last_of]
  | cons c rest ih =>
    cases hr : find_last_of rest chars with
    | some m =>
      rw [flo_cons_some c hr]
      constructor
      · intro h
        exact absurd h (by simp)
      · intro h
        exfalso
        have h2 : find_last_of rest chars = none :=
          ih.mpr (fun x hx => h x (List.mem_cons_of_mem c hx))
        rw [hr] at h2
        exact absurd h2 (by simp)
    | none =>
      rw [flo_cons_none c hr]
      cases hc : chars.contains c with
      | true =>
        constructor
        · intro h
          exact absurd h (by simp)
        · intro h
          have hcc := h c (List.mem_cons_self c rest)
          rw [hc] at hcc
          exact absurd hcc (by simp)
      | false =>
        show (none : Option Nat) = none ↔ _
        constructor
        · intro _ x hx
          rcases List.mem_cons.mp hx with rfl | hx2
          · exact hc
          · exact ih.mp hr x hx2
        · intro _
          rfl

theorem flo_ne_none_of_mem {s chars : Str} {c : Char}
    (hc : c ∈ s) (hcc : chars.contains c = true) : find_last_of s chars ≠ none := by
  intro h
  have h2 := flo_none_iff.mp h c hc
  rw [hcc] at h2
  exact absurd h2 (by simp)

theorem GetSection_CreateSection_self (d : CDataFile) (n c : Str) :
    (GetSection (CreateSection d n c).2 n).isSome = true := by
  cases h : GetSection d n with
  | some s =>
    rw [CreateSection_false_of_some c (by rw [h]; rfl)]
    rw [h]
    rfl
  | none =>
    rw [CreateSection_of_none c h]
    dsimp only
    rw [GetSection]
    dsimp only
    rw [List.find?_append]
    have h0 : d.m_Sections.find? (fun s => CompareNoCase s.szName n) = none := h
    rw [h0]
    rw [Option.none_or]
    simp only [List.find?]
    rw [show CompareNoCase ({ szName := n, szComment := c, Keys := [] } : t_Section).szName n
      = true from CompareNoCase_refl n]
    rfl

theorem processLine_ok (st : LoadState) (l : Str)
    (hp : st.pSection.isSome = true)
    (hbr : find_first_of (Trim l) ['['] = some 0 →
      find_last_of ((Trim l).drop 1) [']'] ≠ none) :
    ∃ st', processLine st l = .ok st' ∧ st'.pSection.isSome = true := by
  unfold processLine
  simp only []
  by_cases h1 : find_first_of (Trim l) CommentIndicators = some 0
  · rw [if_pos h1]
    exact ⟨_, rfl, hp⟩
  · rw [if_neg h1]
    by_cases h2 : find_first_of (Trim l) ['['] = some 0
    · rw [if_pos h2]
      cases hf : find_last_of ((Trim l).drop 1) [']'] with
      | none => exact absurd hf (hbr h2)
      | some p =>
        refine ⟨_, rfl, ?_⟩
        dsimp only
        rw [Option.isSome_map']
        exact GetSection_CreateSection_self _ _ _
    · rw [if_neg h2]
      by_cases h3 : (Trim l).length > 0
      · rw [if_pos h3]
        by_cases h4 : (GetNextWord (Trim l)).1.length > 0
        · rw [if_pos h4]
          cases hps : st.pSection with
          | none =>
            rw [hps] at hp
            exact absurd hp (by simp)
          | some curName =>
            exact ⟨_, rfl, rfl⟩
        · rw [if_neg h4]
          exact ⟨_, rfl, hp⟩
      · rw [if_neg h3]
        exact ⟨_, rfl, hp⟩

theorem processLines_ok (ls : List Str) (st : LoadState)
    (hp : st.pSection.isSome = true)
    (hbr : ∀ l ∈ ls, find_first_of (Trim l) ['['] = some 0 →
      find_last_of ((Trim l).drop 1) [']'] ≠ none) :
    ∃ st', processLines st ls = .ok st' ∧ st'.pSection.isSome = true := by
  induction ls generalizing st with
  | nil => exact ⟨st, rfl, hp⟩
  | cons l ls ih =>
    obtain ⟨st1, hst1, hp1⟩ := processLine_ok st l hp (hbr l (by simp))
    obtain ⟨st', hst', hp'⟩ := ih st1 hp1 (fun x hx => hbr x (by simp [hx]))
    refine ⟨st', ?_, hp'⟩
    unfold processLines
    rw [hst1]
    exact hst'

/-- **C5 (amended)**: `Load` completes with success on any openable input in
which every trimmed line that starts with `[` still contains a `]`; on a
`[` line without `]` it instead evaluates `erase` at `npos`, which throws
`std::out_of_range` (see the counterexample). -/
theorem c5_load_total_amended (text : Str)
    (hbr : ∀ l ∈ splitOnChar '\n' text, find_first_of (Trim l) ['['] = some 0 →
      find_last_of ((Trim l).drop 1) [']'] ≠ none) :
    ∃ d', Load ctor0 (some text) = .ok (true, d') := by
  obtain ⟨st', hst', hp'⟩ := processLines_ok (splitOnChar '\n' text)
    { doc := { ctor0 with m_Flags := { AUTOCREATE_SECTIONS := true, AUTOCREATE_KEYS := true } },
      pSection := (GetSection { ctor0 with
        m_Flags := { AUTOCREATE_SECTIONS := true, AUTOCREATE_KEYS := true } } []).map
          (fun s => s.szName),
      szComment := [] } (by rfl) hbr
  exact ⟨_, by unfold Load; simp only []; rw [hst']⟩

theorem c5_load_total_witness :
    ∃ d', Load ctor0 (some "[a]\nk=v".toList) = .ok (true, d') :=
  c5_load_total_amended "[a]\nk=v".toList (by decide)

/-! ## C7 amended: comment accumulation -/

theorem processLine_comment (st : LoadState) (l : Str)
    (h : find_first_of (Trim l) CommentIndicators = some 0) :
    processLine st l = .ok { st with szComment := st.szComment ++ '\n' :: Trim l } := by
  unfold processLine
  simp only []
  rw [if_pos h]

/-- **C7 (amended)**: a comment line is appended to the pending-comment
accumulator ALWAYS preceded by a newline separator — even when the
accumulator is empty — and parsing `";c1\n\nKey=V\n"` attaches to `Key` the
comment `"\n;c1"`; the comment–key association does survive the intervening
blank line, but the stored comment keeps the indicator and gains a leading
newline rather than being `"c1"`. -/
theorem c7_comment_amended :
    (∀ st l, find_first_of (Trim l) CommentIndicators = some 0 →
      processLine st l = .ok { st with szComment := st.szComment ++ '\n' :: Trim l }) ∧
    (match Load ctor0 (some ";c1\n\nKey=V\n".toList) with
     | .ok r => (GetKey r.2 "Key".toList []).map (fun k => k.szComment)
     | .error _ => none) = some ('\n' :: ";c1".toList) := by
  constructor
  · exact processLine_comment
  · decide

theorem c7_comment_witness :
    processLine { doc := ctor0, pSection := some [], szComment := [] } ";x".toList =
      .ok { doc := ctor0, pSection := some [],
            szComment := ([] : Str) ++ '\n' :: Trim ";x".toList } ∧
    (match Load ctor0 (some ";c1\n\nKey=V\n".toList) with
     | .ok r => (GetKey r.2 "Key".toList []).map (fun k => k.szComment)
     | .error _ => none) = some ('\n' :: ";c1".toList) :=
  ⟨c7_comment_amended.1 { doc := ctor0, pSection := some [], szComment := [] }
    ";x".toList (by decide),
   c7_comment_amended.2⟩

/-! ## C1: round-trip.  Counterexample, then the amended round-trip for
parse-stable documents. -/

/-- **C1 counterexample**: a value with a trailing space is legal through
the Accessor API, but re-parsing its serialization trims the value's last
character (`Trim` removes the final trim character of the line), so the
second serialization differs from the first:
`saveText D = "K=a \n"` but `saveText (parse (saveText D)) = "K=a\n"`. -/
theorem c1_counterexample :
    saveText (SetValue ctor0 ['K'] "a ".toList [] []).2 = "K=a \n".toList ∧
    (match Load ctor0 (some (saveText (SetValue ctor0 ['K'] "a ".toList [] []).2)) with
     | .ok r => saveText r.2
     | .error _ => []) = "K=a\n".toList ∧
    ("K=a\n".toList : Str) ≠ "K=a \n".toList := by decide

/-- A string whose first character exists and is not a trim character. -/
def headNotTrim (s : Str) : Bool :=
  match s with
  | [] => false
  | c :: _ => !isTrimChar c

/-- A string whose last character exists and is not a trim character. -/
def lastNotTrim (s : Str) : Bool :=
  match s.getLast? with
  | none => false
  | some c => !isTrimChar c

/-- Comments that survive the writer/parser cycle verbatim: empty, or
newline-free and trim-stable at both ends. -/
def goodComment (c : Str) : Bool :=
  c == [] || (!c.contains '\n' && headNotTrim c && lastNotTrim c)

/-- Keys/values that re-parse to themselves: nonempty trim-stable key
without delimiter, newline, or a leading comment/section indicator; value
newline-free and (unless empty) without a trailing trim character. -/
def goodKey (k : t_Key) : Bool :=
  !(k.szKey == []) && !k.szKey.contains '=' && !k.szKey.contains '\n' &&
  headNotTrim k.szKey && lastNotTrim k.szKey &&
  !(k.szKey.head? == some ';') && !(k.szKey.head? == some '[') &&
  !k.szValue.contains '\n' && (k.szValue == [] || lastNotTrim k.szValue) &&
  goodComment k.szComment

def keysDistinct : List t_Key → Bool
  | [] => true
  | k :: rest => rest.all (fun m => !CompareNoCase m.szKey k.szKey) && keysDistinct rest

def goodSection (s : t_Section) : Bool :=
  !(s.szName == []) && !s.szName.contains '\n' &&
  goodComment s.szComment && s.Keys.all goodKey && keysDistinct s.Keys

def namesDistinct : List Str → Bool
  | [] => true
  | n :: rest => rest.all (fun m => !CompareNoCase m n) && namesDistinct rest

/-- Parse-stable documents: the default section first (no comment), every
other section `goodSection`, all names case-insensitively distinct. -/
def wellFormed (d : CDataFile) : Bool :=
  match d.m_Sections with
  | [] => false
  | s0 :: rest =>
    s0.szName == [] && s0.szComment == [] &&
    s0.Keys.all goodKey && keysDistinct s0.Keys &&
    rest.all goodSection &&
    namesDistinct (d.m_Sections.map (fun s => s.szName))

/-- What the parser stores for a nonempty comment `c` written by the
serializer: the unconditional newline plus the emitted comment line. -/
def pComment (c : Str) : Str := if c = [] then [] else '\n' :: CommentStr c

def parsedKey (k : t_Key) : t_Key :=
  { szKey := k.szKey, szValue := k.szValue, szComment := pComment k.szComment }

def parsedSection (s : t_Section) : t_Section :=
  { szName := s.szName, szComment := pComment s.szComment, Keys := s.Keys.map parsedKey }

/-- The serializer's output for one key, as a list of lines. -/
def keyEntryLines (k : t_Key) : List Str :=
  (if k.szComment.length > 0 then [[], CommentStr k.szComment] else []) ++
  [k.szKey ++ EqualIndicators.take 1 ++ k.szValue]

/-- The serializer's output for one section, as a list of lines. -/
def sectionLines (s : t_Section) : List Str :=
  (if s.szComment.length > 0 then [[], CommentStr s.szComment] else []) ++
  (if s.szName.length > 0 then
    (if s.szComment.length > 0 then [] else [[]]) ++ [['['] ++ s.szName ++ [']']]
   else []) ++
  (s.Keys.map keyEntryLines).flatten

def docLines (d : CDataFile) : List Str := (d.m_Sections.map sectionLines).flatten

/-! ### splitOnChar lemmas -/

theorem splitOnChar_ne_nil (c : Char) (s : Str) : splitOnChar c s ≠ [] := by
  cases s with
  | nil => simp [splitOnChar]
  | cons x xs =>
    rw [splitOnChar]
    by_cases h : x = c
    · rw [if_pos h]
      simp
    · rw [if_neg h]
      cases splitOnChar c xs <;> simp

theorem splitOnChar_not_mem {c : Char} {a : Str} (h : ¬ c ∈ a) : splitOnChar c a = [a] := by
  induction a with
  | nil => rfl
  | cons x xs ih =>
    have hx : ¬ x = c := fun hh => h (by rw [hh]; exact List.mem_cons_self c xs)
    have hxs : ¬ c ∈ xs := fun hh => h (List.mem_cons_of_mem x hh)
    rw [splitOnChar, if_neg hx, ih hxs]

theorem splitOnChar_cons_self (c : Char) (b : Str) :
    splitOnChar c (c :: b) = [] :: splitOnChar c b := by
  simp only [splitOnChar]
  simp

theorem splitOnChar_cons_ne {c x : Char} (b : Str) (hx : ¬ x = c) :
    splitOnChar c (x :: b) =
      (match splitOnChar c b with
       | [] => [[x]]
       | l :: ls => (x :: l) :: ls) := by
  simp only [splitOnChar]
  rw [if_neg hx]

theorem splitOnChar_append (c : Char) (a b : Str) :
    splitOnChar c (a ++ c :: b) = splitOnChar c a ++ splitOnChar c b := by
  induction a with
  | nil =>
    rw [List.nil_append, splitOnChar_cons_self]
    rfl
  | cons x xs ih =>
    by_cases hx : x = c
    · subst hx
      rw [List.cons_append, splitOnChar_cons_self, ih, splitOnChar_cons_self]
      rfl
    · rw [List.cons_append, splitOnChar_cons_ne _ hx, ih]
      cases hs : splitOnChar c xs with
      | nil => exact absurd hs (splitOnChar_ne_nil c xs)
      | cons l ls =>
        rw [splitOnChar_cons_ne _ hx, hs]
        rfl

theorem split_line (c : Char) {a : Str} (b : Str) (ha : ¬ c ∈ a) :
    splitOnChar c (a ++ c :: b) = a :: splitOnChar c b := by
  rw [splitOnChar_append, splitOnChar_not_mem ha]
  rfl

/-! ### find-function and Trim helpers -/

theorem ffo_cons_head_true {chars : Str} {c : Char} (rest : Str)
    (hc : chars.contains c = true) : find_first_of (c :: rest) chars = some 0 := by
  rw [find_first_of]
  rw [hc]
  simp

theorem ffo_cons_head_false {chars : Str} {c : Char} (rest : Str)
    (hc : chars.contains c = false) :
    find_first_of (c :: rest) chars = (find_first_of rest chars).map (· + 1) := by
  rw [find_first_of]
  rw [hc]
  simp

theorem ffo_not_some0 {s chars : Str} {c : Char} (hh : s.head? = some c)
    (hc : chars.contains c = false) : find_first_of s chars ≠ some 0 := by
  cases s with
  | nil => simp at hh
  | cons x rest =>
    rw [List.head?_cons, Option.some.injEq] at hh
    subst hh
    rw [ffo_cons_head_false rest hc]
    intro h
    rw [Option.map_eq_some'] at h
    obtain ⟨m, _, hm⟩ := h
    omega

theorem ffo_some0 {s chars : Str} {c : Char} (hh : s.head? = some c)
    (hc : chars.contains c = true) : find_first_of s chars = some 0 := by
  cases s with
  | nil => simp at hh
  | cons x rest =>
    rw [List.head?_cons, Option.some.injEq] at hh
    subst hh
    exact ffo_cons_head_true rest hc

theorem ffo_eq_none {s chars : Str} (h : ∀ x ∈ s, chars.contains x = false) :
    find_first_of s chars = none := by
  induction s with
  | nil => rfl
  | cons x rest ih =>
    rw [ffo_cons_head_false rest (h x (List.mem_cons_self x rest))]
    rw [ih (fun y hy => h y (List.mem_cons_of_mem x hy))]
    rfl

theorem ffo_append_mid {chars : Str} (a : Str) {c : Char} (b : Str)
    (ha : ∀ x ∈ a, chars.contains x = false) (hc : chars.contains c = true) :
    find_first_of (a ++ c :: b) chars = some a.length := by
  induction a with
  | nil => exact ffo_cons_head_true b hc
  | cons x xs ih =>
    rw [List.cons_append,
      ffo_cons_head_false _ (ha x (List.mem_cons_self x xs)),
      ih (fun y hy => ha y (List.mem_cons_of_mem x hy))]
    rfl

theorem flo_append_last {chars : Str} {c : Char} (a : Str) (hc : chars.contains c = true) :
    find_last_of (a ++ [c]) chars = some a.length := by
  induction a with
  | nil =>
    rw [List.nil_append]
    rw [flo_cons_none c (by rfl), hc]
    rfl
  | cons x xs ih =>
    rw [List.cons_append, flo_cons_some x ih]
    rfl

theorem eraseIdx_append_length (a : Str) (c : Char) : (a ++ [c]).eraseIdx a.length = a := by
  induction a with
  | nil => rfl
  | cons x xs ih =>
    rw [List.cons_append, List.length_cons, List.eraseIdx_cons_succ, ih]

theorem Trim_stable {s : Str} (h1 : headNotTrim s = true) (h2 : lastNotTrim s = true) :
    Trim s = s := by
  rw [Trim_eq_phases]
  cases s with
  | nil => simp [headNotTrim] at h1
  | cons c t =>
    rw [headNotTrim, Bool.not_eq_true'] at h1
    have hleft : trimLeftAll (c :: t) = c :: t := by
      rw [trimLeftAll]
      rw [if_pos (by rw [List.any_cons, h1]; simp)]
      rw [List.dropWhile_cons, h1]
      simp
    rw [hleft]
    rw [lastNotTrim] at h2
    cases hl : (c :: t).getLast? with
    | none => rw [hl] at h2; simp at h2
    | some c2 =>
      rw [hl] at h2
      rw [Bool.not_eq_true'] at h2
      exact trimRightOne_last_keep hl h2

theorem head?_append_left {a : Str} (b : Str) (h : a ≠ []) :
    (a ++ b).head? = a.head? := by
  cases a with
  | nil => exact absurd rfl h
  | cons x xs => rfl

theorem getLast?_cons_ne (a : Char) {l : Str} (h : l ≠ []) :
    (a :: l).getLast? = l.getLast? := by
  cases l with
  | nil => exact absurd rfl h
  | cons x xs => exact List.getLast?_cons_cons

theorem getLast?_append_right (a : Str) {b : Str} (h : b ≠ []) :
    (a ++ b).getLast? = b.getLast? := by
  induction a with
  | nil => rfl
  | cons x xs ih =>
    rw [List.cons_append]
    rw [getLast?_cons_ne x (by
      intro hnil
      have := List.append_eq_nil.mp hnil
      exact h this.2)]
    exact ih

theorem contains_singleton_false {a x : Char} (hx : x ≠ a) :
    (([a] : Str).contains x = false) := by
  rw [Bool.eq_false_iff]
  simp [hx]

theorem beq_str_comm (a b : Str) : (a == b) = (b == a) := by
  cases h : a == b with
  | true =>
    rw [beq_iff_eq.mp h]
    simp
  | false =>
    cases h2 : b == a with
    | true =>
      rw [beq_iff_eq.mp h2] at h
      simp at h
    | false => rfl

theorem CompareNoCase_symm (a b : Str) : CompareNoCase a b = CompareNoCase b a := by
  rw [CompareNoCase, CompareNoCase, beq_str_comm]

/-! ### CommentStr lemmas -/

theorem goodComment_parts {c : Str} (hg : goodComment c = true) (hne : c ≠ []) :
    ¬ '\n' ∈ c ∧ headNotTrim c = true ∧ lastNotTrim c = true := by
  rw [goodComment] at hg
  have hnil : (c == []) = false := by simpa using hne
  rw [hnil] at hg
  simp only [Bool.false_or, Bool.and_eq_true, Bool.not_eq_true'] at hg
  refine ⟨?_, hg.1.2, hg.2⟩
  intro hmem
  have := hg.1.1
  rw [Bool.eq_false_iff] at this
  exact this (by simpa using hmem)

theorem CommentStr_cases {c : Str} (hg : goodComment c = true) (hne : c ≠ []) :
    (c.head? = some ';' ∧ CommentStr c = c) ∨
    (c.head? ≠ some ';' ∧ CommentStr c = ';' :: ' ' :: c) := by
  obtain ⟨hnl, hh, hl⟩ := goodComment_parts hg hne
  have ht : Trim c = c := Trim_stable hh hl
  cases c with
  | nil => exact absurd rfl hne
  | cons c0 t =>
    by_cases h0 : c0 = ';'
    · subst h0
      left
      refine ⟨rfl, ?_⟩
      unfold CommentStr
      simp only []
      rw [ht]
      rw [if_neg (by simp)]
      have hffo : find_first_of (';' :: t) CommentIndicators = some 0 :=
        ffo_cons_head_true t (by rfl)
      rw [if_neg (fun hcond => hcond hffo)]
      rfl
    · right
      refine ⟨by simp [h0], ?_⟩
      unfold CommentStr
      simp only []
      rw [ht]
      rw [if_neg (by simp)]
      rw [if_pos (ffo_not_some0 (List.head?_cons)
        (show CommentIndicators.contains c0 = false from contains_singleton_false h0))]
      rfl

theorem CommentStr_head {c : Str} (hg : goodComment c = true) (hne : c ≠ []) :
    (CommentStr c).head? = some ';' := by
  rcases CommentStr_cases hg hne with ⟨h1, h2⟩ | ⟨h1, h2⟩
  · rw [h2, h1]
  · rw [h2]
    rfl

theorem CommentStr_exists_tail {c : Str} (hg : goodComment c = true) (hne : c ≠ []) :
    ∃ tl, CommentStr c = ';' :: tl := by
  have hh := CommentStr_head hg hne
  cases hcs : CommentStr c with
  | nil => rw [hcs] at hh; simp at hh
  | cons a b =>
    rw [hcs, List.head?_cons, Option.some.injEq] at hh
    subst hh
    exact ⟨b, rfl⟩

theorem CommentStr_nl_free {c : Str} (hg : goodComment c = true) (hne : c ≠ []) :
    ¬ '\n' ∈ CommentStr c := by
  obtain ⟨hnl, _, _⟩ := goodComment_parts hg hne
  rcases CommentStr_cases hg hne with ⟨h1, h2⟩ | ⟨h1, h2⟩
  · rw [h2]
    exact hnl
  · rw [h2]
    intro hmem
    rcases List.mem_cons.mp hmem with h | h
    · exact absurd h.symm (by decide)
    · rcases List.mem_cons.mp h with h' | h'
      · exact absurd h'.symm (by decide)
      · exact hnl h'

theorem CommentStr_lastNotTrim {c : Str} (hg : goodComment c = true) (hne : c ≠ []) :
    lastNotTrim (CommentStr c) = true := by
  obtain ⟨_, _, hl⟩ := goodComment_parts hg hne
  rcases CommentStr_cases hg hne with ⟨h1, h2⟩ | ⟨h1, h2⟩
  · rw [h2]
    exact hl
  · rw [h2]
    rw [lastNotTrim, getLast?_cons_ne ';' (by simp), getLast?_cons_ne ' ' hne]
    rw [lastNotTrim] at hl
    exact hl

theorem CommentStr_trim_stable {c : Str} (hg : goodComment c = true) (hne : c ≠ []) :
    Trim (CommentStr c) = CommentStr c := by
  obtain ⟨tl, htl⟩ := CommentStr_exists_tail hg hne
  apply Trim_stable
  · rw [htl]
    rfl
  · exact CommentStr_lastNotTrim hg hne

theorem CommentStr_comment_line {c : Str} (hg : goodComment c = true) (hne : c ≠ []) :
    find_first_of (Trim (CommentStr c)) CommentIndicators = some 0 := by
  rw [CommentStr_trim_stable hg hne]
  exact ffo_some0 (CommentStr_head hg hne) (by rfl)

theorem Trim_newline_CommentStr {c : Str} (hg : goodComment c = true) (hne : c ≠ []) :
    Trim ('\n' :: CommentStr c) = CommentStr c := by
  obtain ⟨tl, htl⟩ := CommentStr_exists_tail hg hne
  rw [Trim_eq_phases]
  have hleft : trimLeftAll ('\n' :: CommentStr c) = CommentStr c := by
    rw [trimLeftAll]
    rw [htl]
    rw [if_pos (by
      rw [List.any_cons, List.any_cons]
      rw [show isTrimChar ';' = false from rfl]
      simp)]
    rw [List.dropWhile_cons, show isTrimChar '\n' = true from rfl, if_pos rfl]
    rw [List.dropWhile_cons, show isTrimChar ';' = false from rfl]
    simp
  rw [hleft]
  have hl := CommentStr_lastNotTrim hg hne
  rw [lastNotTrim] at hl
  cases hlast : (CommentStr c).getLast? with
  | none => rw [hlast] at hl; simp at hl
  | some c2 =>
    rw [hlast] at hl
    rw [Bool.not_eq_true'] at hl
    exact trimRightOne_last_keep hlast hl

theorem CommentStr_newline_prefix {X : Str} (htr : Trim ('\n' :: X) = X) (hne : X ≠ [])
    (hffo : find_first_of X CommentIndicators = some 0) :
    CommentStr ('\n' :: X) = X := by
  unfold CommentStr
  simp only []
  rw [htr]
  rw [if_neg (by simpa using hne)]
  rw [if_neg (fun hcond => hcond hffo)]
  rfl

theorem CommentStr_pComment {c : Str} (hg : goodComment c = true) (hne : c ≠ []) :
    CommentStr ('\n' :: CommentStr c) = CommentStr c := by
  obtain ⟨tl, htl⟩ := CommentStr_exists_tail hg hne
  exact CommentStr_newline_prefix (Trim_newline_CommentStr hg hne)
    (by rw [htl]; simp)
    (ffo_some0 (CommentStr_head hg hne) (by rfl))

/-! ### Splitting the serializer's output into lines -/

theorem goodKey_parts {k : t_Key} (hk : goodKey k = true) :
    k.szKey ≠ [] ∧ ¬ '=' ∈ k.szKey ∧ ¬ '\n' ∈ k.szKey ∧
    headNotTrim k.szKey = true ∧ lastNotTrim k.szKey = true ∧
    k.szKey.head? ≠ some ';' ∧ k.szKey.head? ≠ some '[' ∧
    ¬ '\n' ∈ k.szValue ∧ (k.szValue = [] ∨ lastNotTrim k.szValue = true) ∧
    goodComment k.szComment = true := by
  rw [goodKey] at hk
  rw [Bool.and_eq_true, Bool.and_eq_true, Bool.and_eq_true, Bool.and_eq_true,
    Bool.and_eq_true, Bool.and_eq_true, Bool.and_eq_true, Bool.and_eq_true,
    Bool.and_eq_true] at hk
  obtain ⟨⟨⟨⟨⟨⟨⟨⟨⟨h1, h2⟩, h3⟩, h4⟩, h5⟩, h6⟩, h7⟩, h8⟩, h9⟩, h10⟩ := hk
  exact ⟨by simpa using h1, by simpa using h2, by simpa using h3, h4, h5,
    by simpa using h6, by simpa using h7, by simpa using h8, by simpa using h9, h10⟩

theorem CommentStr_nil : CommentStr [] = [] := rfl

theorem length_pos_ne_nil {s : Str} (h : s.length > 0) : s ≠ [] := by
  intro hnil
  rw [hnil] at h
  simp at h

theorem not_length_pos_nil {s : Str} (h : ¬ s.length > 0) : s = [] := by
  cases s with
  | nil => rfl
  | cons x xs => exact absurd (by simp) h

theorem split_kv (key value rest : Str) (hknl : ¬ '\n' ∈ key) (hvnl : ¬ '\n' ∈ value) :
    splitOnChar '\n' (key ++ '=' :: (value ++ '\n' :: rest)) =
      (key ++ '=' :: value) :: splitOnChar '\n' rest := by
  have h1 : ¬ '\n' ∈ key ++ '=' :: value := by
    intro h
    rcases List.mem_append.mp h with h | h
    · exact hknl h
    · rcases List.mem_cons.mp h with h | h
      · exact absurd h.symm (by decide)
      · exact hvnl h
  have heq : key ++ '=' :: (value ++ '\n' :: rest) = (key ++ '=' :: value) ++ '\n' :: rest := by
    simp
  rw [heq, split_line '\n' _ h1]

theorem split_saveKeyText (k : t_Key) (rest : Str) (hk : goodKey k = true) :
    splitOnChar '\n' (saveKeyText k ++ rest) = keyEntryLines k ++ splitOnChar '\n' rest := by
  obtain ⟨hne, hkeq, hknl, hkh, hkl, hkci, hkbr, hvnl, hv, hgc⟩ := goodKey_parts hk
  have hklen : k.szKey.length > 0 := by
    cases hx : k.szKey with
    | nil => exact absurd hx hne
    | cons a b => simp
  unfold saveKeyText keyEntryLines WriteLn
  rw [show EqualIndicators.take 1 = ['='] from rfl]
  by_cases hc : k.szComment.length > 0
  · rw [if_pos hklen]
    repeat rw [if_pos hc]
    have hcne : k.szComment ≠ [] := length_pos_ne_nil hc
    simp only [List.append_assoc, List.cons_append, List.nil_append,
      List.singleton_append]
    rw [splitOnChar_cons_self,
      split_line '\n' _ (CommentStr_nl_free hgc hcne),
      split_kv _ _ _ hknl hvnl]
  · rw [if_pos hklen]
    repeat rw [if_neg hc]
    have hcnil : k.szComment = [] := not_length_pos_nil hc
    rw [hcnil, CommentStr_nil]
    simp only [List.append_assoc, List.cons_append, List.nil_append,
      List.singleton_append]
    rw [split_kv _ _ _ hknl hvnl]

theorem split_keys_flat (ks : List t_Key) (rest : Str) (h : ks.all goodKey = true) :
    splitOnChar '\n' ((ks.map saveKeyText).flatten ++ rest) =
      (ks.map keyEntryLines).flatten ++ splitOnChar '\n' rest := by
  induction ks with
  | nil => simp
  | cons k ks ih =>
    rw [List.all_cons, Bool.and_eq_true] at h
    rw [List.map_cons, List.map_cons, List.flatten_cons, List.flatten_cons,
      List.append_assoc, split_saveKeyText k _ h.1, ih h.2, List.append_assoc]

theorem split_header (name rest : Str) (hn : ¬ '\n' ∈ name) :
    splitOnChar '\n' ('[' :: (name ++ ']' :: '\n' :: rest)) =
      ('[' :: (name ++ [']'])) :: splitOnChar '\n' rest := by
  have h1 : ¬ '\n' ∈ '[' :: (name ++ [']']) := by
    intro h
    rcases List.mem_cons.mp h with h | h
    · exact absurd h.symm (by decide)
    · rcases List.mem_append.mp h with h | h
      · exact hn h
      · simp at h
  have heq : '[' :: (name ++ ']' :: '\n' :: rest) =
      ('[' :: (name ++ [']'])) ++ '\n' :: rest := by
    simp
  rw [heq, split_line '\n' _ h1]

theorem split_saveSectionText (s : t_Section) (rest : Str)
    (hc : goodComment s.szComment = true) (hn : ¬ '\n' ∈ s.szName)
    (hks : s.Keys.all goodKey = true) :
    splitOnChar '\n' (saveSectionText s ++ rest) =
      sectionLines s ++ splitOnChar '\n' rest := by
  unfold saveSectionText sectionLines WriteLn
  simp only []
  by_cases hcm : s.szComment.length > 0
  · have hcne : s.szComment ≠ [] := length_pos_ne_nil hcm
    repeat rw [if_pos hcm]
    by_cases hname : s.szName.length > 0
    · repeat rw [if_pos hname]
      simp only [List.append_assoc, List.cons_append, List.nil_append,
        List.singleton_append]
      rw [splitOnChar_cons_self,
        split_line '\n' _ (CommentStr_nl_free hc hcne),
        split_header _ _ hn,
        split_keys_flat _ _ hks]
    · repeat rw [if_neg hname]
      simp only [List.append_assoc, List.cons_append, List.nil_append,
        List.singleton_append]
      rw [splitOnChar_cons_self,
        split_line '\n' _ (CommentStr_nl_free hc hcne),
        split_keys_flat _ _ hks]
  · repeat rw [if_neg hcm]
    by_cases hname : s.szName.length > 0
    · repeat rw [if_pos hname]
      simp only [List.append_assoc, List.cons_append, List.nil_append,
        List.singleton_append]
      rw [splitOnChar_cons_self,
        split_header _ _ hn,
        split_keys_flat _ _ hks]
    · repeat rw [if_neg hname]
      simp only [List.append_assoc, List.cons_append, List.nil_append,
        List.singleton_append]
      rw [split_keys_flat _ _ hks]

theorem goodSection_parts {s : t_Section} (h : goodSection s = true) :
    s.szName ≠ [] ∧ ¬ '\n' ∈ s.szName ∧ goodComment s.szComment = true ∧
    s.Keys.all goodKey = true ∧ keysDistinct s.Keys = true := by
  rw [goodSection] at h
  rw [Bool.and_eq_true, Bool.and_eq_true, Bool.and_eq_true, Bool.and_eq_true] at h
  obtain ⟨⟨⟨⟨h1, h2⟩, h3⟩, h4⟩, h5⟩ := h
  exact ⟨by simpa using h1, by simpa using h2, h3, h4, h5⟩

theorem split_sections_flat (ss : List t_Section) (rest : Str)
    (h : ∀ s ∈ ss, goodComment s.szComment = true ∧ ¬ '\n' ∈ s.szName ∧
      s.Keys.all goodKey = true) :
    splitOnChar '\n' ((ss.map saveSectionText).flatten ++ rest) =
      (ss.map sectionLines).flatten ++ splitOnChar '\n' rest := by
  induction ss with
  | nil => simp
  | cons s ss ih =>
    obtain ⟨h1, h2, h3⟩ := h s (List.mem_cons_self s ss)
    rw [List.map_cons, List.map_cons, List.flatten_cons, List.flatten_cons,
      List.append_assoc, split_saveSectionText s _ h1 h2 h3,
      ih (fun x hx => h x (List.mem_cons_of_mem s hx)), List.append_assoc]

theorem wellFormed_parts {d : CDataFile} (h : wellFormed d = true) :
    ∃ s0 rest, d.m_Sections = s0 :: rest ∧ s0.szName = [] ∧ s0.szComment = [] ∧
      s0.Keys.all goodKey = true ∧ keysDistinct s0.Keys = true ∧
      rest.all goodSection = true ∧
      namesDistinct (d.m_Sections.map (fun s => s.szName)) = true := by
  unfold wellFormed at h
  cases hs : d.m_Sections with
  | nil => rw [hs] at h; simp at h
  | cons s0 rest =>
    rw [hs] at h
    rw [Bool.and_eq_true, Bool.and_eq_true, Bool.and_eq_true, Bool.and_eq_true,
      Bool.and_eq_true] at h
    obtain ⟨⟨⟨⟨⟨h1, h2⟩, h3⟩, h4⟩, h5⟩, h6⟩ := h
    exact ⟨s0, rest, rfl, by simpa using h1, by simpa using h2, h3, h4, h5, h6⟩

theorem split_saveText (d : CDataFile) (hwf : wellFormed d = true) :
    splitOnChar '\n' (saveText d) = docLines d ++ [[]] := by
  obtain ⟨s0, rest, hs, hn0, hc0, hk0, _, hrest, _⟩ := wellFormed_parts hwf
  unfold saveText docLines
  rw [← List.append_nil ((d.m_Sections.map saveSectionText).flatten)]
  rw [split_sections_flat]
  · rfl
  · intro s hsmem
    rw [hs] at hsmem
    rcases List.mem_cons.mp hsmem with rfl | hmem
    · exact ⟨by rw [hc0]; rfl, by rw [hn0]; simp, hk0⟩
    · have := hrest
      rw [List.all_eq_true] at this
      obtain ⟨g1, g2, g3, g4, _⟩ := goodSection_parts (this s hmem)
      exact ⟨g3, g2, g4⟩

/-! ### Parser-execution helpers -/

theorem processLine_blank (st : LoadState) : processLine st [] = Except.ok st := rfl

theorem trimLeftAll_stable {s : Str} (h : headNotTrim s = true) : trimLeftAll s = s := by
  cases s with
  | nil => simp [headNotTrim] at h
  | cons c t =>
    rw [headNotTrim, Bool.not_eq_true'] at h
    rw [trimLeftAll]
    rw [if_pos (by rw [List.any_cons, h]; simp)]
    rw [List.dropWhile_cons, h]
    simp

theorem namesDistinct_cons {n : Str} {rest : List Str} (h : namesDistinct (n :: rest) = true) :
    (∀ m ∈ rest, CompareNoCase m n = false) ∧ namesDistinct rest = true := by
  rw [namesDistinct, Bool.and_eq_true] at h
  refine ⟨fun m hm => ?_, h.2⟩
  have := (List.all_eq_true.mp h.1) m hm
  simpa using this

theorem keysDistinct_cons {k : t_Key} {rest : List t_Key} (h : keysDistinct (k :: rest) = true) :
    (∀ m ∈ rest, CompareNoCase m.szKey k.szKey = false) ∧ keysDistinct rest = true := by
  rw [keysDistinct, Bool.and_eq_true] at h
  refine ⟨fun m hm => ?_, h.2⟩
  have := (List.all_eq_true.mp h.1) m hm
  simpa using this

theorem CompareNoCase_false_symm {a b : Str} (h : CompareNoCase a b = false) :
    CompareNoCase b a = false := by
  rw [CompareNoCase_symm]
  exact h

theorem CompareNoCase_nil_false {n : Str} (h : n ≠ []) : CompareNoCase [] n = false := by
  rw [Bool.eq_false_iff]
  intro htrue
  exact h (CompareNoCase_nil_iff'.mp htrue)

theorem map_eq_of_all {α β : Type} (f g : α → β) (l : List α) (h : ∀ a ∈ l, f a = g a) :
    l.map f = l.map g := by
  induction l with
  | nil => rfl
  | cons x xs ih =>
    rw [List.map_cons, List.map_cons, h x (List.mem_cons_self x xs),
      ih (fun a ha => h a (List.mem_cons_of_mem x ha))]

theorem find?_section_last (done : List t_Section) (cur : t_Section) (n : Str)
    (hdone : ∀ s ∈ done, CompareNoCase s.szName n = false)
    (hcur : CompareNoCase cur.szName n = true) :
    (done ++ [cur]).find? (fun s => CompareNoCase s.szName n) = some cur := by
  induction done with
  | nil =>
    rw [List.nil_append]
    simp only [List.find?]
    rw [hcur]
  | cons x xs ih =>
    rw [List.cons_append]
    simp only [List.find?]
    rw [hdone x (List.mem_cons_self x xs)]
    exact ih (fun s hs => hdone s (List.mem_cons_of_mem x hs))

theorem updateFirstSection_append (done : List t_Section) (cur : t_Section) (n : Str)
    (f : t_Section → t_Section)
    (hdone : ∀ s ∈ done, CompareNoCase s.szName n = false)
    (hcur : CompareNoCase cur.szName n = true) :
    updateFirstSection (done ++ [cur]) n f = done ++ [f cur] := by
  induction done with
  | nil =>
    rw [List.nil_append, List.nil_append, updateFirstSection, if_pos hcur]
  | cons x xs ih =>
    rw [List.cons_append, updateFirstSection,
      if_neg (by rw [hdone x (List.mem_cons_self x xs)]; exact Bool.false_ne_true),
      ih (fun s hs => hdone s (List.mem_cons_of_mem x hs)), List.cons_append]

theorem GetNextWord_kv {key : Str} (value : Str) (hne : key ≠ []) (hkeq : ¬ '=' ∈ key)
    (hkh : headNotTrim key = true) (hkl : lastNotTrim key = true) :
    GetNextWord (key ++ '=' :: value) = (key, value) := by
  have hffo : find_first_of (key ++ '=' :: value) EqualIndicators = some key.length :=
    ffo_append_mid key value
      (fun x hx => contains_singleton_false (fun hh => hkeq (hh ▸ hx))) (by decide)
  unfold GetNextWord
  rw [hffo]
  show (Trim ((key ++ '=' :: value).take key.length),
        (key ++ '=' :: value).drop (key.length + 1)) = (key, value)
  have htake : (key ++ '=' :: value).take key.length = key := List.take_left key _
  have hdrop : (key ++ '=' :: value).drop (key.length + 1) = value := by
    rw [show key ++ '=' :: value = (key ++ ['=']) ++ value from by simp]
    rw [show key.length + 1 = (key ++ ['=']).length from by simp]
    exact List.drop_left _ _
  rw [htake, hdrop, Trim_stable hkh hkl]

theorem GetNextWord_noeq {key : Str} (hkeq : ¬ '=' ∈ key) (hkh : headNotTrim key = true)
    (hkl : lastNotTrim key = true) : GetNextWord key = (key, []) := by
  unfold GetNextWord
  rw [show find_first_of key EqualIndicators = none from
    ffo_eq_none (fun x hx => contains_singleton_false (fun hh => hkeq (hh ▸ hx)))]
  show (Trim key, ([] : Str)) = (key, [])
  rw [Trim_stable hkh hkl]

theorem processLine_key (st : LoadState) (k : t_Key) (curName : Str)
    (hk : goodKey k = true) (hp : st.pSection = some curName) :
    processLine st (k.szKey ++ '=' :: k.szValue) =
      Except.ok { st with
        doc := (SetValue st.doc k.szKey k.szValue st.szComment curName).2,
        szComment := [] } := by
  obtain ⟨hne, hkeq, hknl, hkh, hkl, hkci, hkbr, hvnl, hv, hgc⟩ := goodKey_parts hk
  obtain ⟨c0, kt, hkey⟩ : ∃ c0 kt, k.szKey = c0 :: kt := by
    cases hx : k.szKey with
    | nil => exact absurd hx hne
    | cons a b => exact ⟨a, b, rfl⟩
  have hc0ne : c0 ≠ ';' := by
    intro hh
    apply hkci
    rw [hkey, hh]
    rfl
  have hc0nb : c0 ≠ '[' := by
    intro hh
    apply hkbr
    rw [hkey, hh]
    rfl
  have htrim : Trim (k.szKey ++ '=' :: k.szValue) =
      (if k.szValue = [] then k.szKey else k.szKey ++ '=' :: k.szValue) := by
    rw [Trim_eq_phases]
    have hhead : headNotTrim (k.szKey ++ '=' :: k.szValue) = true := by
      rw [hkey, List.cons_append, headNotTrim]
      rw [hkey, headNotTrim] at hkh
      exact hkh
    rw [trimLeftAll_stable hhead]
    by_cases hvz : k.szValue = []
    · rw [if_pos hvz, hvz]
      have hlast : (k.szKey ++ '=' :: ([] : Str)).getLast? = some '=' := by
        rw [getLast?_append_right _ (by simp)]
        rfl
      rw [trimRightOne_last_trim hlast (by decide)]
      exact List.dropLast_concat
    · rw [if_neg hvz]
      have hvl : lastNotTrim k.szValue = true := by
        rcases hv with hv | hv
        · exact absurd hv hvz
        · exact hv
      have hlast : (k.szKey ++ '=' :: k.szValue).getLast? = k.szValue.getLast? := by
        rw [getLast?_append_right _ (by simp)]
        exact getLast?_cons_ne '=' hvz
      rw [lastNotTrim] at hvl
      cases hg : k.szValue.getLast? with
      | none =>
        rw [hg] at hvl
        simp at hvl
      | some c2 =>
        rw [hg] at hvl
        rw [Bool.not_eq_true'] at hvl
        exact trimRightOne_last_keep (hlast.trans hg) hvl
  have hL : ∃ L, Trim (k.szKey ++ '=' :: k.szValue) = L ∧ L.head? = some c0 ∧
      L.length > 0 ∧ GetNextWord L = (k.szKey, k.szValue) := by
    by_cases hvz : k.szValue = []
    · refine ⟨k.szKey, by rw [htrim, if_pos hvz], by rw [hkey]; rfl,
        by rw [hkey]; simp, ?_⟩
      rw [GetNextWord_noeq hkeq hkh hkl, hvz]
    · refine ⟨k.szKey ++ '=' :: k.szValue, by rw [htrim, if_neg hvz], ?_, ?_, ?_⟩
      · rw [head?_append_left _ hne, hkey]
        rfl
      · rw [hkey]
        simp
      · exact GetNextWord_kv k.szValue hne hkeq hkh hkl
  obtain ⟨L, hLt, hLh, hLl, hLg⟩ := hL
  unfold processLine
  simp only []
  rw [hLt]
  rw [if_neg (ffo_not_some0 hLh (show CommentIndicators.contains c0 = false from
    contains_singleton_false hc0ne))]
  rw [if_neg (ffo_not_some0 hLh (show (['['] : Str).contains c0 = false from
    contains_singleton_false hc0nb))]
  rw [if_pos hLl]
  rw [hLg]
  dsimp only
  rw [if_pos (show k.szKey.length > 0 from by rw [hkey]; simp), hp]

theorem processLine_header (st : LoadState) (name : Str) (hne : name ≠ [])
    (hnone : GetSection st.doc name = none) :
    processLine st ('[' :: (name ++ [']'])) =
      Except.ok { doc := (CreateSection st.doc name st.szComment).2,
                  pSection := some name, szComment := [] } := by
  have htrim : Trim ('[' :: (name ++ [']'])) = '[' :: (name ++ [']']) := by
    apply Trim_stable
    · rfl
    · rw [lastNotTrim, getLast?_cons_ne '[' (by simp), getLast?_append_right name (by simp)]
      rfl
  have hget : GetSection (CreateSection st.doc name st.szComment).2 name =
      some { szName := name, szComment := st.szComment, Keys := [] } := by
    rw [CreateSection_of_none st.szComment hnone]
    dsimp only
    rw [GetSection]
    dsimp only
    exact find?_section_last st.doc.m_Sections _ name
      (GetSection_none_iff.mp hnone) (CompareNoCase_refl name)
  unfold processLine
  simp only []
  rw [htrim]
  rw [if_neg (ffo_not_some0 (show ('[' :: (name ++ [']'])).head? = some '[' from rfl)
    (show CommentIndicators.contains '[' = false from by decide))]
  rw [if_pos (ffo_some0 (show ('[' :: (name ++ [']'])).head? = some '[' from rfl)
    (show (['['] : Str).contains '[' = true from by decide))]
  rw [show ('[' :: (name ++ [']'])).drop 1 = name ++ [']'] from rfl]
  cases hf : find_last_of (name ++ [']']) [']'] with
  | none =>
    rw [flo_append_last name (by decide)] at hf
    exact absurd hf (by simp)
  | some p =>
    have hp2 : p = name.length := by
      rw [flo_append_last name (by decide)] at hf
      injection hf with h
      exact h.symm
    subst hp2
    show Except.ok
        ({ doc := (CreateSection st.doc ((name ++ [']']).eraseIdx name.length) st.szComment).2,
           pSection := (Option.map (fun s => s.szName)
             (GetSection
               (CreateSection st.doc ((name ++ [']']).eraseIdx name.length) st.szComment).2
               ((name ++ [']']).eraseIdx name.length))),
           szComment := [] } : LoadState) =
      Except.ok ({ doc := (CreateSection st.doc name st.szComment).2,
                   pSection := some name,
                   szComment := [] } : LoadState)
    rw [eraseIdx_append_length name ']']
    rw [hget]
    rfl

theorem SetValue_append (done : List t_Section) (cur : t_Section) (fn : Str) (b : Bool)
    (key value comment : Str)
    (hdone : ∀ s ∈ done, CompareNoCase s.szName cur.szName = false)
    (hnew : ∀ m ∈ cur.Keys, CompareNoCase m.szKey key = false) :
    SetValue ⟨done ++ [cur], fn, b, ⟨true, true⟩⟩ key value comment cur.szName =
      (true, ⟨done ++ [{ cur with Keys :=
        cur.Keys ++ [{ szKey := key, szValue := value, szComment := comment }] }], fn, true,
        ⟨true, true⟩⟩) := by
  have hsec : GetSection ⟨done ++ [cur], fn, b, ⟨true, true⟩⟩ cur.szName = some cur := by
    rw [GetSection]
    exact find?_section_last done cur cur.szName hdone (CompareNoCase_refl _)
  have hkey : GetKey ⟨done ++ [cur], fn, b, ⟨true, true⟩⟩ key cur.szName = none := by
    rw [GetKey, hsec]
    exact List.find?_eq_none.mpr (fun m hm => by
      intro hx
      rw [hnew m hm] at hx
      exact Bool.false_ne_true hx)
  have hupd := updateFirstSection_append done cur cur.szName
    (fun s => { s with
      Keys := s.Keys ++ [{ szKey := key, szValue := value, szComment := comment }] })
    hdone (CompareNoCase_refl _)
  unfold SetValue
  simp only []
  rw [hkey, hsec, hupd]
  rfl

theorem processLines_cons_ok {st st' : LoadState} {l : Str} (ls : List Str)
    (h : processLine st l = Except.ok st') :
    processLines st (l :: ls) = processLines st' ls := by
  rw [processLines, h]
  rfl

theorem process_keyEntry (k : t_Key) (done : List t_Section) (cur : t_Section) (fn : Str)
    (b : Bool) (ls : List Str)
    (hk : goodKey k = true)
    (hdone : ∀ s ∈ done, CompareNoCase s.szName cur.szName = false)
    (hnew : ∀ m ∈ cur.Keys, CompareNoCase m.szKey k.szKey = false) :
    processLines ⟨⟨done ++ [cur], fn, b, ⟨true, true⟩⟩, some cur.szName, []⟩
        (keyEntryLines k ++ ls) =
      processLines ⟨⟨done ++ [{ cur with Keys := cur.Keys ++ [parsedKey k] }], fn, true,
        ⟨true, true⟩⟩, some cur.szName, []⟩ ls := by
  obtain ⟨hkne, hkeq, hknl, hkh, hkl, hkci, hkbr, hvnl, hv, hgc⟩ := goodKey_parts hk
  have hstep : processLines
      ⟨⟨done ++ [cur], fn, b, ⟨true, true⟩⟩, some cur.szName, pComment k.szComment⟩
      ((k.szKey ++ '=' :: k.szValue) :: ls) =
    processLines ⟨⟨done ++ [{ cur with Keys := cur.Keys ++ [parsedKey k] }], fn, true,
      ⟨true, true⟩⟩, some cur.szName, []⟩ ls := by
    rw [processLines_cons_ok ls (processLine_key _ k cur.szName hk rfl)]
    dsimp only
    rw [SetValue_append done cur fn b k.szKey k.szValue (pComment k.szComment) hdone hnew]
    rfl
  by_cases hc : k.szComment = []
  · have hpc0 : pComment k.szComment = [] := by
      unfold pComment
      rw [if_pos hc]
    have hlines : keyEntryLines k = [k.szKey ++ '=' :: k.szValue] := by
      unfold keyEntryLines
      rw [if_neg (show ¬ k.szComment.length > 0 from by rw [hc]; simp)]
      rw [show (EqualIndicators.take 1 : Str) = ['='] from rfl]
      rw [List.nil_append, List.append_assoc]
      rfl
    rw [hlines, List.singleton_append]
    conv_lhs => rw [← hpc0]
    exact hstep
  · have hpc1 : pComment k.szComment = '\n' :: CommentStr k.szComment := by
      unfold pComment
      rw [if_neg hc]
    have hclen : k.szComment.length > 0 := by
      cases hx : k.szComment with
      | nil => exact absurd hx hc
      | cons a bb => simp
    have hlines : keyEntryLines k =
        [] :: CommentStr k.szComment :: [k.szKey ++ '=' :: k.szValue] := by
      unfold keyEntryLines
      rw [if_pos hclen]
      rw [show (EqualIndicators.take 1 : Str) = ['='] from rfl]
      rw [List.append_assoc]
      rfl
    rw [hlines, List.cons_append, List.cons_append, List.singleton_append]
    rw [processLines_cons_ok _ (processLine_blank _)]
    rw [processLines_cons_ok _ (processLine_comment _ _ (CommentStr_comment_line hgc hc))]
    rw [CommentStr_trim_stable hgc hc]
    dsimp only [List.nil_append]
    conv_lhs => rw [← hpc1]
    exact hstep

theorem process_keyLines (ks : List t_Key) : ∀ (done : List t_Section) (cur : t_Section)
    (fn : Str) (b : Bool) (ls : List Str),
    ks.all goodKey = true → keysDistinct ks = true →
    (∀ s ∈ done, CompareNoCase s.szName cur.szName = false) →
    (∀ k ∈ ks, ∀ m ∈ cur.Keys, CompareNoCase m.szKey k.szKey = false) →
    ∃ b', processLines ⟨⟨done ++ [cur], fn, b, ⟨true, true⟩⟩, some cur.szName, []⟩
        ((ks.map keyEntryLines).flatten ++ ls) =
      processLines ⟨⟨done ++ [{ cur with Keys := cur.Keys ++ ks.map parsedKey }], fn, b',
        ⟨true, true⟩⟩, some cur.szName, []⟩ ls := by
  induction ks with
  | nil =>
    intro done cur fn b ls _ _ _ _
    refine ⟨b, ?_⟩
    rw [List.map_nil, List.flatten_nil, List.nil_append, List.map_nil, List.append_nil]
  | cons k ks ih =>
    intro done cur fn b ls hgood hdist hdone hnew
    rw [List.all_cons, Bool.and_eq_true] at hgood
    obtain ⟨hdk, hdrest⟩ := keysDistinct_cons hdist
    obtain ⟨b', hrest⟩ := ih done { cur with Keys := cur.Keys ++ [parsedKey k] } fn true ls
      hgood.2 hdrest
      (fun s hs => hdone s hs)
      (fun k' hk' m hm => by
        dsimp only at hm
        rcases List.mem_append.mp hm with hm | hm
        · exact hnew k' (List.mem_cons_of_mem k hk') m hm
        · rcases List.mem_cons.mp hm with rfl | hm2
          · exact CompareNoCase_false_symm (hdk k' hk')
          · simp at hm2)
    refine ⟨b', ?_⟩
    rw [List.map_cons, List.flatten_cons, List.append_assoc]
    rw [process_keyEntry k done cur fn b ((ks.map keyEntryLines).flatten ++ ls) hgood.1 hdone
      (fun m hm => hnew k (List.mem_cons_self k ks) m hm)]
    rw [List.map_cons]
    rw [show cur.Keys ++ parsedKey k :: List.map parsedKey ks =
      (cur.Keys ++ [parsedKey k]) ++ List.map parsedKey ks from by simp]
    exact hrest

theorem process_sectionBlock (s : t_Section) (done : List t_Section) (fn : Str) (b : Bool)
    (pn : Option Str) (ls : List Str)
    (hgood : goodSection s = true)
    (hfresh : ∀ x ∈ done, CompareNoCase x.szName s.szName = false) :
    ∃ b', processLines ⟨⟨done, fn, b, ⟨true, true⟩⟩, pn, []⟩ (sectionLines s ++ ls) =
      processLines ⟨⟨done ++ [parsedSection s], fn, b', ⟨true, true⟩⟩, some s.szName, []⟩
        ls := by
  obtain ⟨hne, hnnl, hgc, hgk, hkd⟩ := goodSection_parts hgood
  have hnone : GetSection ⟨done, fn, b, ⟨true, true⟩⟩ s.szName = none :=
    GetSection_none_iff.mpr (fun x hx => hfresh x hx)
  have hnlen : s.szName.length > 0 := by
    cases hx : s.szName with
    | nil => exact absurd hx hne
    | cons a bb => simp
  by_cases hc : s.szComment = []
  · have hpc : pComment s.szComment = [] := by
      unfold pComment
      rw [if_pos hc]
    have hsl : sectionLines s =
        [] :: ('[' :: (s.szName ++ [']'])) :: (s.Keys.map keyEntryLines).flatten := by
      unfold sectionLines
      rw [if_neg (show ¬ s.szComment.length > 0 from by rw [hc]; simp),
        if_pos hnlen,
        if_neg (show ¬ s.szComment.length > 0 from by rw [hc]; simp)]
      rfl
    obtain ⟨b', hk⟩ := process_keyLines s.Keys done ⟨s.szName, [], []⟩ fn true ls hgk hkd
      (fun x hx => hfresh x hx) (fun k _ m hm => absurd hm (List.not_mem_nil m))
    refine ⟨b', ?_⟩
    rw [show parsedSection s = ⟨s.szName, [], s.Keys.map parsedKey⟩ from by
      unfold parsedSection
      rw [hpc]]
    rw [hsl, List.cons_append, List.cons_append]
    rw [processLines_cons_ok _ (processLine_blank _)]
    rw [processLines_cons_ok _ (processLine_header _ s.szName hne hnone)]
    rw [CreateSection_of_none _ hnone]
    exact hk
  · have hpc : pComment s.szComment = '\n' :: CommentStr s.szComment := by
      unfold pComment
      rw [if_neg hc]
    have hclen : s.szComment.length > 0 := by
      cases hx : s.szComment with
      | nil => exact absurd hx hc
      | cons a bb => simp
    have hsl : sectionLines s = [] :: CommentStr s.szComment ::
        ('[' :: (s.szName ++ [']'])) :: (s.Keys.map keyEntryLines).flatten := by
      unfold sectionLines
      rw [if_pos hclen, if_pos hnlen, if_pos hclen]
      rfl
    obtain ⟨b', hk⟩ := process_keyLines s.Keys done
      ⟨s.szName, '\n' :: CommentStr s.szComment, []⟩ fn true ls hgk hkd
      (fun x hx => hfresh x hx) (fun k _ m hm => absurd hm (List.not_mem_nil m))
    refine ⟨b', ?_⟩
    rw [show parsedSection s =
        ⟨s.szName, '\n' :: CommentStr s.szComment, s.Keys.map parsedKey⟩ from by
      unfold parsedSection
      rw [hpc]]
    rw [hsl, List.cons_append, List.cons_append, List.cons_append]
    rw [processLines_cons_ok _ (processLine_blank _)]
    rw [processLines_cons_ok _ (processLine_comment _ _ (CommentStr_comment_line hgc hc))]
    rw [CommentStr_trim_stable hgc hc]
    rw [processLines_cons_ok _ (processLine_header _ s.szName hne hnone)]
    rw [CreateSection_of_none _ hnone]
    exact hk

theorem process_sections (ss : List t_Section) : ∀ (done : List t_Section) (fn : Str)
    (b : Bool) (pn : Option Str) (ls : List Str),
    ss.all goodSection = true →
    namesDistinct (ss.map (fun s => s.szName)) = true →
    (∀ s ∈ ss, ∀ x ∈ done, CompareNoCase x.szName s.szName = false) →
    ∃ b' pn', processLines ⟨⟨done, fn, b, ⟨true, true⟩⟩, pn, []⟩
        ((ss.map sectionLines).flatten ++ ls) =
      processLines ⟨⟨done ++ ss.map parsedSection, fn, b', ⟨true, true⟩⟩, pn', []⟩ ls := by
  induction ss with
  | nil =>
    intro done fn b pn ls _ _ _
    refine ⟨b, pn, ?_⟩
    rw [List.map_nil, List.flatten_nil, List.nil_append, List.map_nil, List.append_nil]
  | cons s ss ih =>
    intro done fn b pn ls hgood hdist hfresh
    rw [List.all_cons, Bool.and_eq_true] at hgood
    rw [List.map_cons] at hdist
    obtain ⟨hd1, hd2⟩ := namesDistinct_cons hdist
    obtain ⟨b1, h1⟩ := process_sectionBlock s done fn b pn
      ((ss.map sectionLines).flatten ++ ls)
      hgood.1 (fun x hx => hfresh s (List.mem_cons_self s ss) x hx)
    obtain ⟨b2, pn2, h2⟩ := ih (done ++ [parsedSection s]) fn b1 (some s.szName) ls
      hgood.2 hd2
      (fun t ht x hx => by
        rcases List.mem_append.mp hx with hx | hx
        · exact hfresh t (List.mem_cons_of_mem s ht) x hx
        · rcases List.mem_cons.mp hx with rfl | hx2
          · exact CompareNoCase_false_symm (hd1 t.szName (List.mem_map_of_mem _ ht))
          · simp at hx2)
    refine ⟨b2, pn2, ?_⟩
    rw [List.map_cons, List.flatten_cons, List.append_assoc, h1]
    rw [List.map_cons]
    rw [show done ++ parsedSection s :: List.map parsedSection ss =
      (done ++ [parsedSection s]) ++ List.map parsedSection ss from by simp]
    exact h2

theorem saveKeyText_parsed (k : t_Key) (hk : goodKey k = true) :
    saveKeyText (parsedKey k) = saveKeyText k := by
  obtain ⟨hkne, _, _, _, _, _, _, _, _, hgc⟩ := goodKey_parts hk
  by_cases hc : k.szComment = []
  · have hpk : parsedKey k = k := by
      unfold parsedKey pComment
      rw [if_pos hc, ← hc]
    rw [hpk]
  · have hpc : pComment k.szComment = '\n' :: CommentStr k.szComment := by
      unfold pComment
      rw [if_neg hc]
    have hclen : k.szComment.length > 0 := by
      cases hx : k.szComment with
      | nil => exact absurd hx hc
      | cons a bb => simp
    have hplen : ('\n' :: CommentStr k.szComment).length > 0 := by simp
    have hklen : k.szKey.length > 0 := by
      cases hx : k.szKey with
      | nil => exact absurd hx hkne
      | cons a bb => simp
    unfold saveKeyText
    dsimp only [parsedKey]
    rw [hpc]
    repeat rw [if_pos hklen]
    repeat rw [if_pos hplen]
    repeat rw [if_pos hclen]
    rw [CommentStr_pComment hgc hc]

theorem saveSectionText_parsed (s : t_Section) (hgc : goodComment s.szComment = true)
    (hks : s.Keys.all goodKey = true) :
    saveSectionText (parsedSection s) = saveSectionText s := by
  have hmap : List.map saveKeyText (List.map parsedKey s.Keys) =
      List.map saveKeyText s.Keys := by
    rw [List.map_map]
    exact map_eq_of_all _ _ _ (fun k hkm =>
      saveKeyText_parsed k ((List.all_eq_true.mp hks) k hkm))
  unfold saveSectionText
  dsimp only [parsedSection]
  by_cases hc : s.szComment = []
  · rw [show pComment s.szComment = [] from by unfold pComment; rw [if_pos hc], hc]
    rw [hmap]
  · have hpc : pComment s.szComment = '\n' :: CommentStr s.szComment := by
      unfold pComment
      rw [if_neg hc]
    have hclen : s.szComment.length > 0 := by
      cases hx : s.szComment with
      | nil => exact absurd hx hc
      | cons a bb => simp
    have hplen : ('\n' :: CommentStr s.szComment).length > 0 := by simp
    rw [hpc]
    repeat rw [if_pos hplen]
    repeat rw [if_pos hclen]
    rw [CommentStr_pComment hgc hc]
    rw [hmap]

theorem Load_ctor0_eval (text : Str) (st : LoadState)
    (h : processLines ⟨⟨[(⟨[], [], []⟩ : t_Section)], [], false, ⟨true, true⟩⟩,
        some ([] : Str), []⟩ (splitOnChar '\n' text) = Except.ok st) :
    Load ctor0 (some text) = Except.ok (true, st.doc) := by
  unfold Load
  simp only []
  split
  next e heq =>
    exact Except.noConfusion (h.symm.trans heq)
  next st' heq =>
    have h2 := h.symm.trans heq
    injection h2 with h3
    rw [h3]
    rfl

/-- **C1 (amended)**: the round-trip `serialize (parse (serialize D)) =
serialize D` holds for every parse-stable (`wellFormed`) document — default
section first with no comment, every key/section name nonempty, trim-stable,
free of delimiter/newline/indicator characters, values without a trailing
trim character, names and keys case-insensitively distinct — but not for
every document built through the Accessor API: `SetValue` accepts a value
with a trailing space, and re-parsing drops that character (see the
counterexample). -/
theorem c1_roundtrip_amended (D : CDataFile) (hwf : wellFormed D = true) :
    ∃ D', Load ctor0 (some (saveText D)) = Except.ok (true, D') ∧
      saveText D' = saveText D := by
  obtain ⟨s0, rest, hs, hn0, hc0, hk0, hkd0, hrest, hnames⟩ := wellFormed_parts hwf
  have hrest' : ∀ t ∈ rest, goodSection t = true :=
    fun t ht => (List.all_eq_true.mp hrest) t ht
  have hlines : splitOnChar '\n' (saveText D) =
      (s0.Keys.map keyEntryLines).flatten ++ ((rest.map sectionLines).flatten ++ [[]]) := by
    rw [split_saveText D hwf]
    unfold docLines
    rw [hs, List.map_cons, List.flatten_cons]
    rw [show sectionLines s0 = (s0.Keys.map keyEntryLines).flatten from by
      unfold sectionLines
      rw [hn0, hc0]
      simp]
    rw [List.append_assoc]
  obtain ⟨b1, h1⟩ := process_keyLines s0.Keys [] ⟨[], [], []⟩ [] false
    ((rest.map sectionLines).flatten ++ [[]]) hk0 hkd0
    (fun x hx => absurd hx (List.not_mem_nil x))
    (fun k _ m hm => absurd hm (List.not_mem_nil m))
  have hnames2 : namesDistinct (rest.map (fun t => t.szName)) = true := by
    rw [hs, List.map_cons] at hnames
    exact (namesDistinct_cons hnames).2
  obtain ⟨b2, pn2, h2⟩ := process_sections rest [⟨[], [], s0.Keys.map parsedKey⟩] [] b1
    (some ([] : Str)) [[]] hrest hnames2
    (fun t ht x hx => by
      rcases List.mem_cons.mp hx with rfl | hx2
      · exact CompareNoCase_nil_false (goodSection_parts (hrest' t ht)).1
      · simp at hx2)
  have h3 : processLines
      ⟨⟨(⟨[], [], s0.Keys.map parsedKey⟩ : t_Section) :: rest.map parsedSection, [], b2,
        ⟨true, true⟩⟩, pn2, []⟩ [[]] =
    Except.ok ⟨⟨(⟨[], [], s0.Keys.map parsedKey⟩ : t_Section) :: rest.map parsedSection, [],
      b2, ⟨true, true⟩⟩, pn2, []⟩ := by
    rw [processLines_cons_ok [] (processLine_blank _)]
    rfl
  have htot : processLines ⟨⟨[(⟨[], [], []⟩ : t_Section)], [], false, ⟨true, true⟩⟩,
      some ([] : Str), []⟩ (splitOnChar '\n' (saveText D)) =
    Except.ok ⟨⟨(⟨[], [], s0.Keys.map parsedKey⟩ : t_Section) :: rest.map parsedSection, [],
      b2, ⟨true, true⟩⟩, pn2, []⟩ := by
    rw [hlines]
    exact h1.trans (h2.trans h3)
  refine ⟨⟨(⟨[], [], s0.Keys.map parsedKey⟩ : t_Section) :: rest.map parsedSection, [], b2,
    ⟨true, true⟩⟩, Load_ctor0_eval (saveText D) _ htot, ?_⟩
  show saveText ⟨(⟨[], [], s0.Keys.map parsedKey⟩ : t_Section) :: rest.map parsedSection,
    [], b2, ⟨true, true⟩⟩ = saveText D
  unfold saveText
  dsimp only
  rw [hs]
  rw [List.map_cons, List.map_cons, List.flatten_cons, List.flatten_cons]
  have hfirst : saveSectionText ⟨[], [], s0.Keys.map parsedKey⟩ = saveSectionText s0 := by
    have hps : (⟨[], [], s0.Keys.map parsedKey⟩ : t_Section) = parsedSection s0 := by
      unfold parsedSection
      rw [hn0, hc0]
      rfl
    rw [hps]
    exact saveSectionText_parsed s0 (by rw [hc0]; decide) hk0
  rw [hfirst]
  rw [List.map_map]
  rw [map_eq_of_all (saveSectionText ∘ parsedSection) saveSectionText rest
    (fun t ht => by
      obtain ⟨_, _, g3, g4, _⟩ := goodSection_parts (hrest' t ht)
      exact saveSectionText_parsed t g3 g4)]

/-- A concrete parse-stable document: the default section holding `k=v`,
then section `S` with comment `c` and key `a=1` with comment `w`. -/
def c1doc : CDataFile :=
  { m_Sections :=
      [ { szName := [], szComment := [], Keys := [⟨['k'], ['v'], []⟩] },
        { szName := ['S'], szComment := ['c'], Keys := [⟨['a'], ['1'], ['w']⟩] } ],
    m_szFileName := ['f'], m_bDirty := false,
    m_Flags := { AUTOCREATE_SECTIONS := true, AUTOCREATE_KEYS := true } }

theorem c1_roundtrip_witness :
    wellFormed c1doc = true ∧
    (∃ D', Load ctor0 (some (saveText c1doc)) = Except.ok (true, D') ∧
      saveText D' = saveText c1doc) :=
  ⟨by decide, c1_roundtrip_amended c1doc (by decide)⟩

end cdf
